import Mathlib

/-!
Shallow embedding of the rippled NFT transaction-processing core:

* `src/ripple/app/tx/impl/details/NFTokenUtils.cpp` — the paged token
  directory engine (`locatePage`, `getPageForToken`, `insertToken`,
  `mergePages`, `removeToken`, `findToken`);
* `src/ripple/app/tx/impl/NFTokenMint.cpp` — `createTokenID` and the
  mint apply phase;
* `src/ripple/app/tx/impl/NFTokenAcceptOffer.cpp` — the brokered-mode
  preclaim checks and the settlement paths of `doApply` / `acceptOffer`.

Machine integers are embedded as `Nat` (with explicit `% 2^w` where the
source can overflow); 256-bit token identifiers and page keys are `Nat`.
A ledger `ApplyView`, restricted to a single owner's NFT pages plus that
owner's object count, is a `Dir`: a list of pages kept in ascending key
order (the ledger is an ordered key-value store) paired with the owner
count.  Fallible paths return `Option`/sum results; a `Throw` in the
source is modelled as `none`.

Helpers (`keylet::nftpage`, `nft::pageMask`, `nft::cipheredTaxon`,
`nft::getTransferFee`, `nft::getIssuer`, `transferFeeAsRate`/`multiply`,
`adjustOwnerCount`, `accountSend`) live outside the five provided source
files; they are modelled from the spec where so marked.
-/

namespace NFT

/-- Result codes (subset of rippled's `TER` used by the embedded code). -/
inductive TER where
  | tesSUCCESS
  | tecNO_SUITABLE_PAGE
  | tecNO_ENTRY
  | tecINTERNAL
  | tecNO_ISSUER
  | tecMAX_SEQUENCE_REACHED
  | tecINSUFFICIENT_RESERVE
  | tecOBJECT_NOT_FOUND
  | tecEXPIRED
  | tecBUY_SELL_MISMATCH
  | tecINSUFFICIENT_PAYMENT
  | tecOFFER_TYPE_MISMATCH
  | tecCANT_ACCEPT_OWN_OFFER
  | tecNO_PERMISSION
  | tecINSUFFICIENT_FUNDS
deriving DecidableEq, Repr

/-- Modelled from the spec: `nft::pageMask` zeros the low 96 bits of a
256-bit token identifier; `id & pageMask` is therefore determined by the
high bits `id / 2^96`, which we use directly as the "page prefix" value
(equality and order of masked identifiers agree with equality and order
of these values). -/
def pagePfx (id : Nat) : Nat := id / 2 ^ 96

/-- Maximum number of tokens on one page (`dirMaxTokensPerPage`). -/
def dirMaxTokensPerPage : Nat := 32

/-- Modelled from the spec: within one owner, `keylet::nftpage_max(owner)`
is the greatest possible page key; every token's page-prefix value is
strictly below it (identifiers are 256-bit, so prefixes are below
`2^160`). -/
def maxPageKey : Nat := 2 ^ 160

/-- One `{token_id, uri?}` entry of an NFT page (an `STObject` holding
`sfTokenID` and optionally `sfURI`; the URI blob is opaque to the page
engine, so we represent it by a `Nat` tag). -/
structure TokenEntry where
  id : Nat
  uri : Option Nat := none
deriving DecidableEq, Repr

instance : Inhabited TokenEntry := ⟨⟨0, none⟩⟩

/-- An NFT page ledger object (`ltNFTOKEN_PAGE`), restricted to one owner:
its key (the owner-local 96-bit bound, represented on the prefix scale),
the optional `sfPreviousPageMin` / `sfNextPageMin` links, and the
`sfNonFungibleTokens` array. -/
structure Page where
  key : Nat
  prev : Option Nat
  next : Option Nat
  tokens : List TokenEntry
deriving DecidableEq, Repr

/-- One owner's slice of the ledger: the NFT pages in ascending key order
(the ledger is an ordered map) together with the owner's object count
(`sfOwnerCount`, adjusted through `adjustOwnerCount`). -/
structure Dir where
  pages : List Page
  ownerCount : Int
deriving DecidableEq, Repr

/-- Ledger read of a page by key (`view.peek` / `view.read`). -/
def lookupPage (ps : List Page) (k : Nat) : Option Page :=
  ps.find? (fun p => p.key == k)

/-- Ledger write-back of a page (`view.update`); pages are addressed by key. -/
def updatePage (ps : List Page) (p : Page) : List Page :=
  ps.map (fun q => if q.key == p.key then p else q)

/-- Ledger insertion of a fresh page (`view.insert`); the ledger keeps its
keys ordered. -/
def insertPageSorted (p : Page) : List Page → List Page
  | [] => [p]
  | q :: qs => if q.key < p.key then q :: insertPageSorted p qs else p :: q :: qs

/-- Ledger erasure of a page (`view.erase`). -/
def erasePage (ps : List Page) (k : Nat) : List Page :=
  ps.filter (fun p => p.key != k)

/-- The `locatePage` helper: `view.succ(first.key, last.key.next())`
returns the least page key strictly greater than
`keylet::nftpage(keylet::nftpage_min(owner), id)` — on the prefix scale,
strictly greater than `pagePfx id` — and the page there, if any. -/
def locatePage (ps : List Page) (id : Nat) : Option Page :=
  ps.find? (fun p => decide (pagePfx id < p.key))

/-- The split-point computation inside `getPageForToken` for a full page:
`cmp` is the masked identifier of entry 15; `std::find_if_not` from entry
16 looks for the first entry whose masked identifier differs from `cmp`;
if that reaches the end, `std::find_if` from the front looks for the
first entry whose masked identifier equals `cmp`.  Like the iterators in
the source, the result equals `toks.length` when a scan finds nothing. -/
def splitIndex (toks : List TokenEntry) : Nat :=
  let cmp := pagePfx ((toks.getD (dirMaxTokensPerPage / 2 - 1) default).id)
  let i := dirMaxTokensPerPage / 2 +
    (toks.drop (dirMaxTokensPerPage / 2)).findIdx (fun o => decide (pagePfx o.id ≠ cmp))
  if i ≥ toks.length then toks.findIdx (fun o => decide (pagePfx o.id = cmp)) else i

/-- The effect of `arr.push_back(nft); arr.sort(compareTokens)` on a page
array that is already sorted by masked identifier: the new entry lands
after every entry whose masked identifier is less than or equal to its
own.  (`STArray::sort` is unstable, so the position of the new entry
among equal-prefix entries is unspecified in the source; this fixes one
of the allowed outcomes.) -/
def insertTokenSorted (x : TokenEntry) : List TokenEntry → List TokenEntry
  | [] => [x]
  | t :: ts =>
      if pagePfx t.id ≤ pagePfx x.id then t :: insertTokenSorted x ts
      else x :: t :: ts

/-- The predecessor rewiring inside the split path of `getPageForToken`:
when the full page carries a `sfPreviousPageMin` link and that page can
be loaded, its `sfNextPageMin` is pointed at the new page's key (the
source silently skips a predecessor that fails to load). -/
def relinkPredecessor (ps : List Page) (lk : Option Nat) (npKey : Nat) : List Page :=
  match lk with
  | none => ps
  | some ppm =>
      match lookupPage ps ppm with
      | none => ps
      | some p3 => updatePage ps ⟨p3.key, p3.prev, some npKey, p3.tokens⟩

/-- The split path of `getPageForToken` on a located full page `cp`:
entries `[0, i)` move to a new page keyed by the masked identifier of
entry `i` (= `carr[0]`); the new page inherits `cp.prev` and points at
`cp`; `cp.prev` becomes the new page; the predecessor, if any, is
rewired; the owner count grows by one; the page whose key range admits
the inserted identifier is chosen. -/
def splitFullPage (d : Dir) (cp : Page) (id : Nat) : Option (Page × Dir) :=
  let i := splitIndex cp.tokens
  if i = 0 ∨ i ≥ cp.tokens.length then none
  else
    -- Split: entries [0, i) leave for the new page, [i, end) stay.
    let narr := cp.tokens.take i
    let carr := cp.tokens.drop i
    let npKey := pagePfx (carr.headD default).id
    let np : Page := ⟨npKey, cp.prev, some cp.key, narr⟩
    let cp' : Page := ⟨cp.key, some npKey, cp.next, carr⟩
    let ps2 := updatePage (insertPageSorted np (relinkPredecessor d.pages cp.prev npKey)) cp'
    some (if pagePfx id ≤ npKey then np else cp', ⟨ps2, d.ownerCount + 1⟩)

/-- The `getPageForToken` function.  Returns the chosen page (as stored)
and the updated ledger slice, or `none` for the `nullptr` result
(`tecNO_SUITABLE_PAGE` at the caller).  The `createCallback` used by
`insertToken` increments the owner count by one, which is inlined here
exactly where the source invokes it. -/
def getPageForToken (d : Dir) (id : Nat) : Option (Page × Dir) :=
  match locatePage d.pages id with
  | none =>
      -- A suitable page doesn't exist; create one keyed `last`.
      let np : Page := ⟨maxPageKey, none, none, []⟩
      some (np, ⟨insertPageSorted np d.pages, d.ownerCount + 1⟩)
  | some cp =>
      if cp.tokens.length = dirMaxTokensPerPage then splitFullPage d cp id
      else
        -- The right page still has space.
        some (cp, d)

/-- The `insertToken` function: locate (or create) the page, append the
token and re-sort, write the page back. -/
def insertToken (d : Dir) (nft : TokenEntry) : TER × Dir :=
  match getPageForToken d nft.id with
  | none => (TER.tecNO_SUITABLE_PAGE, d)
  | some (page, d1) =>
      let arr := insertTokenSorted nft page.tokens
      (TER.tesSUCCESS, ⟨updatePage d1.pages ⟨page.key, page.prev, page.next, arr⟩,
        d1.ownerCount⟩)

/-- The comparator-driven `std::merge` of two sorted token arrays inside
`mergePages`: an element of the second range is taken only while it is
strictly below the head of the first range. -/
def mergeTokenLists : List TokenEntry → List TokenEntry → List TokenEntry
  | [], l2 => l2
  | l1, [] => l1
  | a :: l1, b :: l2 =>
      if pagePfx b.id < pagePfx a.id then b :: mergeTokenLists (a :: l1) l2
      else a :: mergeTokenLists l1 (b :: l2)
termination_by l1 l2 => l1.length + l2.length

/-- The successful-merge tail of `mergePages`, after the size check has
passed: the combined array lands on the higher-keyed page `p2`, whose
`sfPreviousPageMin` is rewired to `p1`'s (pointing the predecessor `p0`,
when present, forward at `p2`), and the lower-keyed page is erased.  A
predecessor that cannot be loaded `Throw`s (`none`). -/
def mergePagesMerged (d : Dir) (p1 p2 : Page) : Option (Bool × Dir) :=
  let merged := mergeTokenLists p1.tokens p2.tokens
  match p1.prev with
  | none =>
      some (true, ⟨erasePage (updatePage d.pages ⟨p2.key, none, p2.next, merged⟩) p1.key,
        d.ownerCount⟩)
  | some ppm =>
      match lookupPage d.pages ppm with
      | none => none
      | some p0 =>
          some (true, ⟨erasePage (updatePage
            (updatePage d.pages ⟨p0.key, p0.prev, some p2.key, p0.tokens⟩)
            ⟨p2.key, some ppm, p2.next, merged⟩) p1.key, d.ownerCount⟩)

/-- The `mergePages` function, addressed by the two page keys (the source
receives live handles to the stored pages; the callers always pass keys
of stored pages).  Returns `none` where the source `Throw`s (order or
link checks failing), otherwise the `bool` result and the updated ledger
slice. -/
def mergePages (d : Dir) (k1 k2 : Nat) : Option (Bool × Dir) :=
  match lookupPage d.pages k1, lookupPage d.pages k2 with
  | some p1, some p2 =>
      if k1 ≥ k2 then none
      else if p1.next ≠ some p2.key then none
      else if p2.prev ≠ some p1.key then none
      else if p1.tokens.length + p2.tokens.length > dirMaxTokensPerPage then some (false, d)
      else mergePagesMerged d p1 p2
  | _, _ => none

/-- The `loadPage` lambda inside `removeToken`: follow an optional link;
a present link that cannot be loaded `Throw`s (outer `none`). -/
def loadLinked (ps : List Page) (lk : Option Nat) : Option (Option Page) :=
  match lk with
  | none => some none
  | some k => (lookupPage ps k).map some

/-- Removal of the first entry with the given identifier
(`std::find_if` + `erase` on the page array). -/
def eraseFirstToken (tokenID : Nat) : List TokenEntry → List TokenEntry
  | [] => []
  | t :: ts => if t.id == tokenID then ts else t :: eraseFirstToken tokenID ts

/-- The `removeToken` function.  `none` models a `Throw` (broken link);
otherwise the result code and the updated ledger slice. -/
def removeToken (d : Dir) (tokenID : Nat) : Option (TER × Dir) :=
  match locatePage d.pages tokenID with
  | none => some (TER.tecNO_ENTRY, d)
  | some curr =>
      if ¬ curr.tokens.any (fun t => t.id == tokenID) then some (TER.tecNO_ENTRY, d)
      else
        let arr := eraseFirstToken tokenID curr.tokens
        match loadLinked d.pages curr.prev, loadLinked d.pages curr.next with
        | some prevOpt, some nextOpt =>
            if arr.isEmpty then
              -- The page is empty: unlink it, erase it, then attempt to
              -- merge the two now-adjacent neighbors.
              let ps1 :=
                match prevOpt with
                | none => d.pages
                | some pv => updatePage d.pages ⟨pv.key, pv.prev, nextOpt.map Page.key, pv.tokens⟩
              let ps2 :=
                match nextOpt with
                | none => ps1
                | some nx => updatePage ps1 ⟨nx.key, prevOpt.map Page.key, nx.next, nx.tokens⟩
              let ps3 := erasePage ps2 curr.key
              match prevOpt, nextOpt with
              | some pv, some nx =>
                  (mergePages ⟨ps3, d.ownerCount⟩ pv.key nx.key).bind fun m =>
                    let cnt : Int := if m.1 then 2 else 1
                    some (TER.tesSUCCESS, ⟨m.2.pages, m.2.ownerCount - cnt⟩)
              | _, _ => some (TER.tesSUCCESS, ⟨ps3, d.ownerCount - 1⟩)
            else
              -- The page stays: write it back, then try to consolidate
              -- with the previous and then the next page.
              let d1 : Dir := ⟨updatePage d.pages ⟨curr.key, curr.prev, curr.next, arr⟩,
                d.ownerCount⟩
              (match prevOpt with
               | none => some (false, d1)
               | some pv => mergePages d1 pv.key curr.key).bind fun m1 =>
                (match nextOpt with
                 | none => some (false, m1.2)
                 | some nx => mergePages m1.2 curr.key nx.key).bind fun m2 =>
                  let cnt : Int := (if m1.1 then 1 else 0) + (if m2.1 then 1 else 0)
                  some (TER.tesSUCCESS, ⟨m2.2.pages, m2.2.ownerCount - cnt⟩)
        | _, _ => none

/-- The `findToken` function: locate the candidate page and look for the
identifier inside it. -/
def findToken (ps : List Page) (tokenID : Nat) : Option TokenEntry :=
  match locatePage ps tokenID with
  | none => none
  | some page => page.tokens.find? (fun t => t.id == tokenID)

/-! ### NFTokenMint -/

/-- Modelled from the spec: the taxon cipher is `raw_taxon XOR lcg(seq)`
for a fixed linear congruential function of the mint sequence; the exact
constants are a protocol parameter outside the provided sources, and no
claim depends on them.  This fixes one concrete affine function mod
`2^32`. -/
def lcg (tokenSeq : Nat) : Nat := (384160001 * tokenSeq + 2459) % 2 ^ 32

/-- Modelled from the spec: `nft::cipheredTaxon(tokenSeq, taxon)` XORs the
raw taxon with the LCG output. -/
def cipheredTaxon (tokenSeq taxon : Nat) : Nat := Nat.xor taxon (lcg tokenSeq)

/-- `NFTokenMint::createTokenID`: big-endian packing of
flags(16) ‖ fee(16) ‖ issuer(160) ‖ cipheredTaxon(32) ‖ sequence(32)
into one 256-bit value, here as arithmetic on `Nat`. -/
def createTokenID (flags fee issuer taxon tokenSeq : Nat) : Nat :=
  (flags % 2 ^ 16) * 2 ^ 240 + (fee % 2 ^ 16) * 2 ^ 224 +
    (issuer % 2 ^ 160) * 2 ^ 64 +
    cipheredTaxon (tokenSeq % 2 ^ 32) (taxon % 2 ^ 32) * 2 ^ 32 +
    tokenSeq % 2 ^ 32

/-- The fields of an `NFTokenMint` transaction used by `doApply`
(the issuer resolution `ctx_.tx[~sfIssuer].value_or(account_)` is done
by the caller of `mintDoApply`). -/
structure MintTx where
  flags : Nat
  transferFee : Nat
  taxon : Nat
  uri : Option Nat
deriving DecidableEq, Repr

/-- The state `NFTokenMint::doApply` reads and writes: the issuer root's
`sfMintedTokens` field (absent or a 32-bit value), the submitter's NFT
directory together with the submitter's owner count, and the submitter's
balance before fees (`mPriorBalance`). -/
structure MintState where
  mintedTokens : Option Nat
  dir : Dir
  priorBalance : Nat
deriving DecidableEq, Repr

/-- `NFTokenMint::doApply`.  `reserve` is the host ledger's
`fees().accountReserve` table.  The token-sequence block runs first
(aborting with `tecMAX_SEQUENCE_REACHED` on 32-bit wrap before anything
is written); then the token is inserted into the submitter's directory;
finally the reserve is checked only when the owner count grew. -/
def mintDoApply (reserve : Int → Nat) (issuer : Nat) (tx : MintTx) (st : MintState) :
    TER × MintState :=
  let tokenSeq := st.mintedTokens.getD 0
  let nextTokenSeq := (tokenSeq + 1) % 2 ^ 32
  if nextTokenSeq < tokenSeq then (TER.tecMAX_SEQUENCE_REACHED, st)
  else
    let st1 : MintState := ⟨some nextTokenSeq, st.dir, st.priorBalance⟩
    let ownerCountBefore := st1.dir.ownerCount
    let nft : TokenEntry :=
      ⟨createTokenID (tx.flags % 2 ^ 16) tx.transferFee issuer tx.taxon tokenSeq, tx.uri⟩
    let r := insertToken st1.dir nft
    let st2 : MintState := ⟨st1.mintedTokens, r.2, st1.priorBalance⟩
    if r.1 = TER.tesSUCCESS then
      if r.2.ownerCount > ownerCountBefore ∧ st.priorBalance < reserve r.2.ownerCount
      then (TER.tecINSUFFICIENT_RESERVE, st2)
      else (TER.tesSUCCESS, st2)
    else (r.1, st2)

/-! ### NFTokenAcceptOffer -/

/-- An asset-tagged amount (`STAmount`): the `Issue` (currency and its
issuing account) abstractly, and the non-negative value (offer amounts
are checked non-negative at preflight). -/
structure Amount where
  asset : Nat
  value : Nat
deriving DecidableEq, Repr

/-- An NFT offer object (`ltNFTOKEN_OFFER`), the fields `doApply` and the
brokered preclaim read. -/
structure Offer where
  owner : Nat
  tokenID : Nat
  amount : Amount
  flags : Nat
  destination : Option Nat := none
deriving DecidableEq, Repr

/-- The `lsfSellToken` ledger flag. -/
def lsfSellToken : Nat := 1

/-- Test of the `lsfSellToken` flag on an offer. -/
def isSellOffer (o : Offer) : Bool := o.flags &&& lsfSellToken == lsfSellToken

/-- Modelled from the spec: `nft::getTransferFee` reads the 16-bit
transfer-fee field (bit offset 16 from the top) of the identifier. -/
def getTransferFee (id : Nat) : Nat := id / 2 ^ 224 % 2 ^ 16

/-- Modelled from the spec: `nft::getIssuer` reads the 160-bit issuer
field of the identifier. -/
def getIssuer (id : Nat) : Nat := id / 2 ^ 64 % 2 ^ 160

/-- Modelled from the spec: `multiply(amount, transferFeeAsRate(fee))`
computes `round_down(amount × fee / 100000)`. -/
def transferCut (amount fee : Nat) : Nat := amount * fee / 100000

/-- One `pay(from, to, amount)` call made by the settlement engine.
Modelled from the spec: the payment primitive delegates to the ledger's
account-send routine; here it is recorded as an emitted transfer.  The
negative-amount `tecINTERNAL` guard in `pay` is vacuous on `Nat`. -/
structure Payment where
  src : Nat
  dst : Nat
  amount : Nat
deriving DecidableEq, Repr

/-- Outcome of a settlement: the result code, the (at most one) payment
made at each of the three pay sites — broker fee, issuer cut, seller
remainder — and the two directories after the token move. -/
structure SettleResult where
  result : TER
  brokerPay : Option Payment
  issuerPay : Option Payment
  sellerPay : Option Payment
  sellerDir : Dir
  buyerDir : Dir
deriving DecidableEq, Repr

/-- The payments of a settlement in the order they are made. -/
def SettleResult.payments (r : SettleResult) : List Payment :=
  [r.brokerPay, r.issuerPay, r.sellerPay].filterMap id

/-- Net balance change of account `a` under a list of payments. -/
def balanceDelta (ps : List Payment) (a : Nat) : Int :=
  ps.foldl (fun acc p =>
    acc + (if p.dst = a then (p.amount : Int) else 0) -
      (if p.src = a then (p.amount : Int) else 0)) 0

/-- The token-move tail shared by both settlement paths: find the token
in the seller's directory (`tecINTERNAL` if absent), remove it there,
insert it into the buyer's directory.  A `Throw` inside `removeToken`
aborts the transaction, represented like `tecINTERNAL` here (no claim
reaches it). -/
def transferToken (sellerDir buyerDir : Dir) (tokenID : Nat) : TER × Dir × Dir :=
  match findToken sellerDir.pages tokenID with
  | none => (TER.tecINTERNAL, sellerDir, buyerDir)
  | some nft =>
      match removeToken sellerDir tokenID with
      | none => (TER.tecINTERNAL, sellerDir, buyerDir)
      | some (r, sellerDir') =>
          if r ≠ TER.tesSUCCESS then (r, sellerDir', buyerDir)
          else
            let ins := insertToken buyerDir nft
            (ins.1, sellerDir', ins.2)

/-- The running amount in the brokered path after the broker fee is
deducted (`amount -= cut.value` when a nonzero broker fee is present). -/
def postBrokerAmount (bo : Offer) (brokerFee : Option Amount) : Nat :=
  match brokerFee with
  | some cut => if cut.value ≠ 0 then bo.amount.value - cut.value else bo.amount.value
  | none => bo.amount.value

/-- The brokered branch of `NFTokenAcceptOffer::doApply` (both offers
present), starting after both offer objects have been deleted: broker
fee first, then the issuer's cut computed on the remainder, then the
rest to the seller, then the token move.  `sellerDir` / `buyerDir` are
the directories of the sell offer's owner and the buy offer's owner. -/
def brokeredApply (submitter : Nat) (bo so : Offer) (brokerFee : Option Amount)
    (sellerDir buyerDir : Dir) : SettleResult :=
  let buyer := bo.owner
  let seller := so.owner
  let tokenID := so.tokenID
  -- Send the broker the amount they requested.
  let brokerPay : Option Payment :=
    match brokerFee with
    | some cut => if cut.value ≠ 0 then some ⟨buyer, submitter, cut.value⟩ else none
    | none => none
  let amount1 := postBrokerAmount bo brokerFee
  -- Calculate the issuer's cut, if any.
  let fee := getTransferFee tokenID
  let issuer := getIssuer tokenID
  let cut := transferCut amount1 fee
  let issuerPay : Option Payment :=
    if amount1 ≠ 0 ∧ fee ≠ 0 ∧ seller ≠ issuer ∧ buyer ≠ issuer
    then some ⟨buyer, issuer, cut⟩ else none
  let amount2 :=
    if amount1 ≠ 0 ∧ fee ≠ 0 ∧ seller ≠ issuer ∧ buyer ≠ issuer
    then amount1 - cut else amount1
  -- And send whatever remains to the seller.
  let sellerPay : Option Payment :=
    if amount2 > 0 then some ⟨buyer, seller, amount2⟩ else none
  let t := transferToken sellerDir buyerDir tokenID
  ⟨t.1, brokerPay, issuerPay, sellerPay, t.2.1, t.2.2⟩

/-- `NFTokenAcceptOffer::acceptOffer` (direct mode), starting after the
offer object has been deleted.  The submitter plays the role opposite
the offer's `lsfSellToken` flag.  `sellerDir` / `buyerDir` are the
directories of whoever ends up seller and buyer. -/
def acceptOffer (submitter : Nat) (offer : Offer) (sellerDir buyerDir : Dir) :
    SettleResult :=
  let isSell := isSellOffer offer
  let owner := offer.owner
  let seller := if isSell then owner else submitter
  let buyer := if isSell then submitter else owner
  let tokenID := offer.tokenID
  let amount := offer.amount.value
  let fee := getTransferFee tokenID
  let issuer := getIssuer tokenID
  let cut := transferCut amount fee
  let payCut :=
    amount ≠ 0 ∧ fee ≠ 0 ∧ cut ≠ 0 ∧ seller ≠ issuer ∧ buyer ≠ issuer
  let issuerPay : Option Payment := if payCut then some ⟨buyer, issuer, cut⟩ else none
  let amount2 := if payCut then amount - cut else amount
  let sellerPay : Option Payment :=
    if amount ≠ 0 then some ⟨buyer, seller, amount2⟩ else none
  let t := transferToken sellerDir buyerDir tokenID
  ⟨t.1, none, issuerPay, sellerPay, t.2.1, t.2.2⟩

/-- Destination test of the brokered preclaim: the sell offer's
destination, when present, must be the buy offer's owner. -/
def destMismatch (so : Offer) (buyOwner : Nat) : Bool :=
  match so.destination with
  | some dest => dest != buyOwner
  | none => false

/-- The brokered-mode block of `NFTokenAcceptOffer::preclaim`
(both offers present), lines 90–131 of the source: the early-return
chain over the two offers and the optional broker fee. -/
def brokeredPreclaim (bo so : Offer) (brokerFee : Option Amount) : TER :=
  if bo.tokenID ≠ so.tokenID then TER.tecBUY_SELL_MISMATCH
  else if bo.amount.asset ≠ so.amount.asset then TER.tecBUY_SELL_MISMATCH
  else if so.amount.value > bo.amount.value then TER.tecINSUFFICIENT_PAYMENT
  else if destMismatch so bo.owner then TER.tecBUY_SELL_MISMATCH
  else
    match brokerFee with
    | none => TER.tesSUCCESS
    | some bf =>
        if bf.asset ≠ bo.amount.asset then TER.tecBUY_SELL_MISMATCH
        else if bf.value ≥ bo.amount.value then TER.tecINSUFFICIENT_PAYMENT
        else if so.amount.value > bo.amount.value - bf.value then TER.tecINSUFFICIENT_PAYMENT
        else TER.tesSUCCESS

/-! ### The directory invariant (spec §3.2 / §4.B) -/

/-- Page keys strictly ascend along the ledger slice. -/
def keysSortedB : List Page → Bool
  | [] => true
  | [_] => true
  | p :: q :: rest => decide (p.key < q.key) && keysSortedB (q :: rest)

/-- Consecutive pages point at each other; the final page has no
successor link. -/
def linksChainB : List Page → Bool
  | [] => true
  | [p] => p.next == none
  | p :: q :: rest => p.next == some q.key && q.prev == some p.key && linksChainB (q :: rest)

/-- The chain is a well-formed doubly-linked list: the first page has no
predecessor link, consecutive pages are mutually linked, and the last
page has no successor link. -/
def linksOkB (ps : List Page) : Bool :=
  match ps with
  | [] => true
  | p :: _ => p.prev == none && linksChainB ps

/-- Every page holds between 1 and 32 tokens. -/
def sizesOkB (ps : List Page) : Bool :=
  ps.all (fun p => decide (1 ≤ p.tokens.length) && decide (p.tokens.length ≤ dirMaxTokensPerPage))

/-- A page's token array is sorted by masked identifier. -/
def toksSortedB : List TokenEntry → Bool
  | [] => true
  | [_] => true
  | a :: b :: rest => decide (pagePfx a.id ≤ pagePfx b.id) && toksSortedB (b :: rest)

/-- Every token of a page lies within the page's key range: at or above
the preceding page's key (`lo`), strictly below the page's own key. -/
def pageBoundsB (lo : Option Nat) (p : Page) : Bool :=
  p.tokens.all (fun t =>
    (match lo with
     | none => true
     | some l => decide (l ≤ pagePfx t.id)) && decide (pagePfx t.id < p.key))

/-- The token bounds along the whole slice, threading each page's key as
the next page's lower bound. -/
def pagesBoundedB : Option Nat → List Page → Bool
  | _, [] => true
  | lo, p :: rest => pageBoundsB lo p && pagesBoundedB (some p.key) rest

/-- Keys stay within the owner's page-key range and identifiers are
256-bit values. -/
def rangesOkB (ps : List Page) : Bool :=
  ps.all (fun p => decide (p.key ≤ maxPageKey) &&
    p.tokens.all (fun t => decide (t.id < 2 ^ 256)))

/-- The full directory invariant: a sorted, well-linked chain of
non-empty, non-overfull pages of sorted tokens partitioned by key range
(this also forces tokens of equal masked identifier onto one page). -/
def dirInvariantB (d : Dir) : Bool :=
  keysSortedB d.pages && linksOkB d.pages && sizesOkB d.pages &&
    d.pages.all (fun p => toksSortedB p.tokens) &&
    pagesBoundedB none d.pages && rangesOkB d.pages

/-- The lower bound in force after a run of pages, as threaded by
`pagesBoundedB`: the last page's key, or the incoming bound for an empty
run. -/
def afterBound (lo : Option Nat) : List Page → Option Nat
  | [] => lo
  | p :: ps => afterBound (some p.key) ps

/-- The keys of a ledger slice, in order. -/
def pageKeys (ps : List Page) : List Nat := ps.map Page.key

/-- A run of pages with the last one's successor link redirected to `k`
(how `mergePages` rewires the predecessor `p0` of an erased page). -/
def redirectLast : List Page → Nat → List Page
  | [], _ => []
  | [p0], k => [⟨p0.key, p0.prev, some k, p0.tokens⟩]
  | p :: q :: rest, k => p :: redirectLast (q :: rest) k

/-! ## Theorems -/

/-! ### List-surgery helper lemmas -/

theorem lookupPage_cons (p : Page) (ps : List Page) (k : Nat) :
    lookupPage (p :: ps) k = if p.key == k then some p else lookupPage ps k := by
  simp only [lookupPage, List.find?]
  cases h : (p.key == k) <;> simp [h]

theorem lookupPage_append_of_ne (A B : List Page) (k : Nat)
    (h : ∀ q ∈ A, q.key ≠ k) : lookupPage (A ++ B) k = lookupPage B k := by
  induction A with
  | nil => simp
  | cons a A ih =>
      have ha : a.key ≠ k := h a (by simp)
      simp only [List.cons_append, lookupPage_cons]
      rw [if_neg (by simpa using ha)]
      exact ih (fun q hq => h q (by simp [hq]))

theorem lookupPage_self_of_nodup (A B : List Page) (p : Page)
    (hnd : (pageKeys (A ++ p :: B)).Nodup) :
    lookupPage (A ++ p :: B) p.key = some p := by
  have hA : ∀ q ∈ A, q.key ≠ p.key := by
    intro q hq hkey
    simp only [pageKeys, List.map_append, List.map_cons, List.nodup_append] at hnd
    exact hnd.2.2 (List.mem_map_of_mem Page.key hq) (by simp [hkey])
  rw [lookupPage_append_of_ne A _ _ hA, lookupPage_cons, if_pos (by simp)]

theorem updatePage_append (A B : List Page) (p : Page) :
    updatePage (A ++ B) p = updatePage A p ++ updatePage B p := by
  simp [updatePage]

theorem updatePage_of_ne (A : List Page) (p : Page)
    (h : ∀ q ∈ A, q.key ≠ p.key) : updatePage A p = A := by
  induction A with
  | nil => rfl
  | cons a A ih =>
      simp only [updatePage, List.map_cons]
      rw [if_neg (by simpa using h a (by simp))]
      have := ih (fun q hq => h q (by simp [hq]))
      simp only [updatePage] at this
      rw [this]

theorem updatePage_cons_self (a : Page) (A : List Page) (p : Page) (h : a.key = p.key) :
    updatePage (a :: A) p = p :: updatePage A p := by
  simp only [updatePage, List.map_cons]
  rw [if_pos (by simpa using h)]

theorem updatePage_keys (A : List Page) (p : Page) :
    pageKeys (updatePage A p) = pageKeys A := by
  induction A with
  | nil => rfl
  | cons a A ih =>
      simp only [updatePage, pageKeys, List.map_cons] at ih ⊢
      by_cases h : a.key = p.key
      · rw [if_pos (by simpa using h), ih, h]
      · rw [if_neg (by simpa using h), ih]

theorem updatePage_length (A : List Page) (p : Page) :
    (updatePage A p).length = A.length := by
  simp [updatePage]

theorem erasePage_append (A B : List Page) (k : Nat) :
    erasePage (A ++ B) k = erasePage A k ++ erasePage B k := by
  simp [erasePage]

theorem erasePage_of_ne (A : List Page) (k : Nat) (h : ∀ q ∈ A, q.key ≠ k) :
    erasePage A k = A := by
  induction A with
  | nil => rfl
  | cons a A ih =>
      simp only [erasePage, List.filter_cons]
      rw [if_pos (by simpa using h a (by simp))]
      have := ih (fun q hq => h q (by simp [hq]))
      simp only [erasePage] at this
      rw [this]

theorem erasePage_cons_self (a : Page) (A : List Page) (h : a.key = k) :
    erasePage (a :: A) k = erasePage A k := by
  simp only [erasePage, List.filter_cons]
  rw [if_neg (by simp [h])]

theorem insertPageSorted_length (p : Page) (ps : List Page) :
    (insertPageSorted p ps).length = ps.length + 1 := by
  induction ps with
  | nil => rfl
  | cons q qs ih =>
      simp only [insertPageSorted]
      by_cases h : q.key < p.key
      · rw [if_pos h]; simp [ih]
      · rw [if_neg h]; simp

theorem lookupPage_insertPageSorted_self (p : Page) (ps : List Page)
    (h : ∀ q ∈ ps, q.key ≠ p.key) :
    lookupPage (insertPageSorted p ps) p.key = some p := by
  induction ps with
  | nil => simp [insertPageSorted, lookupPage_cons]
  | cons q qs ih =>
      simp only [insertPageSorted]
      by_cases hq : q.key < p.key
      · rw [if_pos hq, lookupPage_cons, if_neg (by simpa using h q (by simp))]
        exact ih (fun r hr => h r (by simp [hr]))
      · rw [if_neg hq, lookupPage_cons, if_pos (by simp)]

theorem lookupPage_insertPageSorted_ne (p : Page) (ps : List Page) (k : Nat)
    (h : k ≠ p.key) :
    lookupPage (insertPageSorted p ps) k = lookupPage ps k := by
  induction ps with
  | nil =>
      simp only [insertPageSorted, lookupPage_cons]
      rw [if_neg (by simp; exact fun hh => h hh.symm)]
  | cons q qs ih =>
      simp only [insertPageSorted]
      by_cases hq : q.key < p.key
      · rw [if_pos hq, lookupPage_cons, lookupPage_cons]
        cases hqk : (q.key == k) <;> simp [hqk, ih]
      · rw [if_neg hq, lookupPage_cons, if_neg (by simp; omega)]

theorem find?_append_of_all_false {α : Type} (f : α → Bool) (A B : List α)
    (h : ∀ a ∈ A, f a = false) : List.find? f (A ++ B) = List.find? f B := by
  induction A with
  | nil => rfl
  | cons a A ih =>
      simp only [List.cons_append, List.find?]
      rw [h a (by simp)]
      exact ih (fun x hx => h x (by simp [hx]))

theorem getLast?_cons_ne_none {α : Type} (a : α) (l : List α) :
    (a :: l).getLast? ≠ none := by
  induction l generalizing a with
  | nil => simp
  | cons b l ih => rw [List.getLast?_cons_cons]; exact ih b

theorem mem_of_getLast?_eq {α : Type} (l : List α) (a : α)
    (h : l.getLast? = some a) : a ∈ l := by
  induction l with
  | nil => simp at h
  | cons b l ih =>
      cases l with
      | nil => simp at h; simp [h]
      | cons c l' =>
          rw [List.getLast?_cons_cons] at h
          exact List.mem_cons_of_mem b (ih h)

/-! ### Invariant decomposition lemmas -/

theorem keysSortedB_iff (ps : List Page) :
    keysSortedB ps = true ↔ List.Chain' (fun p q => p.key < q.key) ps := by
  induction ps with
  | nil => simp [keysSortedB]
  | cons p ps ih =>
      cases ps with
      | nil => simp [keysSortedB]
      | cons q rest =>
          rw [show keysSortedB (p :: q :: rest) =
            (decide (p.key < q.key) && keysSortedB (q :: rest)) from rfl]
          simp only [Bool.and_eq_true, decide_eq_true_eq, List.chain'_cons]
          rw [ih]

theorem keysSorted_pairwise (ps : List Page) (h : keysSortedB ps = true) :
    ps.Pairwise (fun p q => p.key < q.key) := by
  haveI : IsTrans Page (fun p q => p.key < q.key) :=
    ⟨fun _ _ _ hab hbc => Nat.lt_trans hab hbc⟩
  exact List.chain'_iff_pairwise.mp ((keysSortedB_iff ps).mp h)

theorem keysSorted_nodup (ps : List Page) (h : keysSortedB ps = true) :
    (pageKeys ps).Nodup := by
  have hp := keysSorted_pairwise ps h
  have hm : (pageKeys ps).Pairwise (· < ·) :=
    List.Pairwise.map Page.key (fun _ _ hab => hab) hp
  exact hm.imp Nat.ne_of_lt

theorem linksChain_head_next (curr : Page) (l2 : List Page)
    (h : linksChainB (curr :: l2) = true) :
    curr.next = (l2.head?).map Page.key := by
  cases l2 with
  | nil => simpa [linksChainB] using h
  | cons nx l2' =>
      rw [show linksChainB (curr :: nx :: l2') =
        (curr.next == some nx.key && nx.prev == some curr.key && linksChainB (nx :: l2'))
        from rfl] at h
      simp only [Bool.and_eq_true, beq_iff_eq] at h
      simpa using h.1.1

theorem linksChain_decomp (l1 : List Page) (curr : Page) (l2 : List Page)
    (h : linksChainB (l1 ++ curr :: l2) = true) :
    (∀ pv, l1.getLast? = some pv → curr.prev = some pv.key) ∧
      curr.next = (l2.head?).map Page.key := by
  induction l1 with
  | nil =>
      exact ⟨by simp, linksChain_head_next curr l2 (by simpa using h)⟩
  | cons p l1' ih =>
      cases l1' with
      | nil =>
          simp only [List.nil_append, List.cons_append] at h
          rw [show linksChainB (p :: curr :: l2) =
            (p.next == some curr.key && curr.prev == some p.key && linksChainB (curr :: l2))
            from rfl] at h
          simp only [Bool.and_eq_true, beq_iff_eq] at h
          refine ⟨?_, linksChain_head_next curr l2 (by simp [h.2])⟩
          intro pv hpv
          simp only [List.getLast?_singleton, Option.some.injEq] at hpv
          subst hpv
          exact h.1.2
      | cons q l1'' =>
          simp only [List.cons_append] at h
          rw [show linksChainB (p :: (q :: (l1'' ++ curr :: l2))) =
            (p.next == some q.key && q.prev == some p.key &&
              linksChainB (q :: (l1'' ++ curr :: l2))) from rfl] at h
          simp only [Bool.and_eq_true, beq_iff_eq] at h
          have htail := ih (by simpa using h.2)
          refine ⟨?_, htail.2⟩
          intro pv hpv
          rw [List.getLast?_cons_cons] at hpv
          exact htail.1 pv hpv

theorem linksOk_chain (ps : List Page) (h : linksOkB ps = true) :
    linksChainB ps = true := by
  cases ps with
  | nil => rfl
  | cons p rest =>
      rw [show linksOkB (p :: rest) = (p.prev == none && linksChainB (p :: rest)) from rfl] at h
      exact ((Bool.and_eq_true _ _).mp h).2

theorem linksOk_decomp (l1 : List Page) (curr : Page) (l2 : List Page)
    (h : linksOkB (l1 ++ curr :: l2) = true) :
    curr.prev = (l1.getLast?).map Page.key ∧ curr.next = (l2.head?).map Page.key := by
  have hd := linksChain_decomp l1 curr l2 (linksOk_chain _ h)
  cases l1 with
  | nil =>
      refine ⟨?_, hd.2⟩
      rw [show linksOkB ([] ++ curr :: l2) =
        (curr.prev == none && linksChainB (curr :: l2)) from rfl] at h
      simp only [Bool.and_eq_true, beq_iff_eq] at h
      simpa using h.1
  | cons p l1' =>
      cases hl : (p :: l1').getLast? with
      | none => exact absurd hl (getLast?_cons_ne_none p l1')
      | some pv => exact ⟨by rw [hd.1 pv hl]; simp [hl], hd.2⟩

theorem pagesBounded_append (lo : Option Nat) (A B : List Page)
    (h : pagesBoundedB lo (A ++ B) = true) :
    pagesBoundedB (afterBound lo A) B = true := by
  induction A generalizing lo with
  | nil => simpa using h
  | cons p A ih =>
      rw [show pagesBoundedB lo ((p :: A) ++ B) =
        (pageBoundsB lo p && pagesBoundedB (some p.key) (A ++ B)) from rfl] at h
      exact ih (some p.key) ((Bool.and_eq_true _ _).mp h).2

theorem afterBound_eq (lo : Option Nat) (l1 : List Page) :
    afterBound lo l1 = (l1.getLast?).elim lo (fun pv => some pv.key) := by
  induction l1 generalizing lo with
  | nil => rfl
  | cons p l1' ih =>
      cases l1' with
      | nil => simp [afterBound]
      | cons q l1'' =>
          rw [show afterBound lo (p :: q :: l1'') = afterBound (some p.key) (q :: l1'') from rfl]
          rw [ih (some p.key), List.getLast?_cons_cons]
          cases hl : (q :: l1'').getLast? with
          | none => exact absurd hl (getLast?_cons_ne_none q l1'')
          | some pv => rfl

theorem pairwise_le_getLast (l1 : List Page)
    (hp : l1.Pairwise (fun p q => p.key < q.key)) :
    ∀ pv, l1.getLast? = some pv → ∀ p ∈ l1, p.key ≤ pv.key := by
  induction l1 with
  | nil => simp
  | cons a l ih =>
      intro pv hpv p hmem
      cases l with
      | nil =>
          simp only [List.getLast?_singleton, Option.some.injEq] at hpv
          simp only [List.mem_singleton] at hmem
          subst hpv; subst hmem; exact Nat.le_refl _
      | cons b l' =>
          rw [List.getLast?_cons_cons] at hpv
          rcases List.mem_cons.mp hmem with rfl | hmem'
          · have hpvmem : pv ∈ b :: l' := mem_of_getLast?_eq _ _ hpv
            exact Nat.le_of_lt ((List.pairwise_cons.mp hp).1 pv hpvmem)
          · exact ih (List.pairwise_cons.mp hp).2 pv hpv p hmem'

theorem pageBounds_token (lo : Option Nat) (p : Page) (t : TokenEntry)
    (h : pageBoundsB lo p = true) (hmem : t ∈ p.tokens) :
    (∀ l, lo = some l → l ≤ pagePfx t.id) ∧ pagePfx t.id < p.key := by
  simp only [pageBoundsB, List.all_eq_true] at h
  have ht := h t hmem
  simp only [Bool.and_eq_true, decide_eq_true_eq] at ht
  refine ⟨?_, ht.2⟩
  intro l hl
  subst hl
  simpa using ht.1

/-- Under the sortedness and bounds clauses of the invariant,
`locatePage` finds exactly the page holding a given token. -/
theorem locatePage_of_mem (l1 l2 : List Page) (curr : Page) (t : TokenEntry)
    (hsorted : keysSortedB (l1 ++ curr :: l2) = true)
    (hbound : pagesBoundedB none (l1 ++ curr :: l2) = true)
    (hmem : t ∈ curr.tokens) :
    locatePage (l1 ++ curr :: l2) t.id = some curr := by
  have hb2 := pagesBounded_append none l1 (curr :: l2) hbound
  have hbc : pageBoundsB (afterBound none l1) curr = true := by
    rw [show pagesBoundedB (afterBound none l1) (curr :: l2) =
      (pageBoundsB (afterBound none l1) curr && pagesBoundedB (some curr.key) l2)
      from rfl] at hb2
    exact ((Bool.and_eq_true _ _).mp hb2).1
  have hbt := pageBounds_token _ curr t hbc hmem
  have hpair := keysSorted_pairwise _ hsorted
  have hpair1 : l1.Pairwise (fun p q => p.key < q.key) :=
    (List.pairwise_append.mp hpair).1
  have hge : ∀ p ∈ l1, p.key ≤ pagePfx t.id := by
    intro p hp
    cases hl : l1.getLast? with
    | none =>
        cases l1 with
        | nil => simp at hp
        | cons a l => exact absurd hl (getLast?_cons_ne_none a l)
    | some pv =>
        have hlast : pv.key ≤ pagePfx t.id := by
          apply hbt.1
          rw [afterBound_eq, hl]
          rfl
        exact Nat.le_trans (pairwise_le_getLast l1 hpair1 pv hl p hp) hlast
  unfold locatePage
  rw [find?_append_of_all_false _ l1 (curr :: l2)
    (by intro p hp; simpa using Nat.not_lt.mpr (hge p hp))]
  simp only [List.find?]
  rw [show (decide (pagePfx t.id < curr.key)) = true by simpa using hbt.2]

theorem dirInvariant_parts (d : Dir) (h : dirInvariantB d = true) :
    keysSortedB d.pages = true ∧ linksOkB d.pages = true ∧ sizesOkB d.pages = true ∧
      (d.pages.all fun p => toksSortedB p.tokens) = true ∧
      pagesBoundedB none d.pages = true ∧ rangesOkB d.pages = true := by
  simpa only [dirInvariantB, Bool.and_eq_true, and_assoc] using h

theorem nodup_split_ne (l1 l2 : List Page) (curr : Page)
    (hnd : (pageKeys (l1 ++ curr :: l2)).Nodup) :
    (∀ q ∈ l1, q.key ≠ curr.key) ∧ (∀ q ∈ l2, q.key ≠ curr.key) := by
  simp only [pageKeys, List.map_append, List.map_cons, List.nodup_append] at hnd
  constructor
  · intro q hq hkey
    exact hnd.2.2 (List.mem_map_of_mem Page.key hq) (by simp [hkey])
  · intro q hq hkey
    have h2 := hnd.2.1
    rw [List.nodup_cons] at h2
    exact h2.1 (by rw [← hkey]; exact List.mem_map_of_mem Page.key hq)

theorem insertTokenSorted_length (x : TokenEntry) (ts : List TokenEntry) :
    (insertTokenSorted x ts).length = ts.length + 1 := by
  induction ts with
  | nil => rfl
  | cons t ts ih =>
      simp only [insertTokenSorted]
      by_cases h : pagePfx t.id ≤ pagePfx x.id
      · rw [if_pos h]; simp [ih]
      · rw [if_neg h]; simp

theorem insertTokenSorted_filter (x : TokenEntry) (ts : List TokenEntry)
    (f : TokenEntry → Bool) :
    ((insertTokenSorted x ts).filter f).length =
      (ts.filter f).length + (if f x then 1 else 0) := by
  induction ts with
  | nil =>
      simp only [insertTokenSorted]
      cases hf : f x <;> simp [List.filter, hf]
  | cons t ts ih =>
      simp only [insertTokenSorted]
      by_cases h : pagePfx t.id ≤ pagePfx x.id
      · rw [if_pos h]
        simp only [List.filter_cons]
        cases hf : f t
        · simp [hf, ih]
        · simp [hf, ih]
          omega
      · rw [if_neg h]
        simp only [List.filter_cons]
        cases hf : f x
        · simp [hf]
        · cases hft : f t
          · simp [hf, hft]
          · simp [hf, hft]

/-- C10: `insertToken` performs no membership check.  If the directory
(satisfying the invariant) already holds a token with identifier `T` on
a page with room, inserting an entry with identifier `T` again succeeds
and leaves that page with two entries carrying the same identifier; no
page is created and the owner count is unchanged. -/
theorem C10_duplicate_insert (d : Dir) (l1 l2 : List Page) (curr : Page)
    (tok : TokenEntry) (u : Option Nat)
    (hinv : dirInvariantB d = true)
    (hsplit : d.pages = l1 ++ curr :: l2)
    (hmem : tok ∈ curr.tokens)
    (hroom : curr.tokens.length < dirMaxTokensPerPage) :
    (insertToken d ⟨tok.id, u⟩).1 = TER.tesSUCCESS ∧
      (insertToken d ⟨tok.id, u⟩).2.pages.length = d.pages.length ∧
      (insertToken d ⟨tok.id, u⟩).2.ownerCount = d.ownerCount ∧
      ∃ p, lookupPage (insertToken d ⟨tok.id, u⟩).2.pages curr.key = some p ∧
        2 ≤ (p.tokens.filter (fun t => t.id == tok.id)).length := by
  obtain ⟨hks, hlk, hsz, hts, hbd, hrg⟩ := dirInvariant_parts d hinv
  have hloc : locatePage d.pages tok.id = some curr := by
    rw [hsplit]
    rw [hsplit] at hks hbd
    exact locatePage_of_mem l1 l2 curr tok hks hbd hmem
  have hne : curr.tokens.length ≠ dirMaxTokensPerPage := Nat.ne_of_lt hroom
  have hgp : getPageForToken d tok.id = some (curr, d) := by
    unfold getPageForToken
    rw [hloc]
    simp [hne]
  have hit : insertToken d ⟨tok.id, u⟩ =
      (TER.tesSUCCESS, ⟨updatePage d.pages
        ⟨curr.key, curr.prev, curr.next, insertTokenSorted ⟨tok.id, u⟩ curr.tokens⟩,
        d.ownerCount⟩) := by
    unfold insertToken
    rw [show (⟨tok.id, u⟩ : TokenEntry).id = tok.id from rfl, hgp]
  have hnd := keysSorted_nodup _ hks
  rw [hsplit] at hnd
  have hdist := nodup_split_ne l1 l2 curr hnd
  have hupd : updatePage d.pages
      ⟨curr.key, curr.prev, curr.next, insertTokenSorted ⟨tok.id, u⟩ curr.tokens⟩ =
      l1 ++ (⟨curr.key, curr.prev, curr.next,
        insertTokenSorted ⟨tok.id, u⟩ curr.tokens⟩ : Page) :: l2 := by
    rw [hsplit, updatePage_append]
    rw [updatePage_of_ne l1 ⟨curr.key, curr.prev, curr.next,
      insertTokenSorted ⟨tok.id, u⟩ curr.tokens⟩ (fun q hq => hdist.1 q hq)]
    rw [updatePage_cons_self curr l2 ⟨curr.key, curr.prev, curr.next,
      insertTokenSorted ⟨tok.id, u⟩ curr.tokens⟩ rfl]
    rw [updatePage_of_ne l2 ⟨curr.key, curr.prev, curr.next,
      insertTokenSorted ⟨tok.id, u⟩ curr.tokens⟩ (fun q hq => hdist.2 q hq)]
  have hnd' : (pageKeys (l1 ++ (⟨curr.key, curr.prev, curr.next,
      insertTokenSorted ⟨tok.id, u⟩ curr.tokens⟩ : Page) :: l2)).Nodup := by
    have hk : pageKeys (l1 ++ (⟨curr.key, curr.prev, curr.next,
        insertTokenSorted ⟨tok.id, u⟩ curr.tokens⟩ : Page) :: l2) =
        pageKeys (l1 ++ curr :: l2) := by
      simp [pageKeys]
    rw [hk]
    exact hnd
  have hlu := lookupPage_self_of_nodup l1 l2
    ⟨curr.key, curr.prev, curr.next, insertTokenSorted ⟨tok.id, u⟩ curr.tokens⟩ hnd'
  refine ⟨by rw [hit], ?_, by rw [hit], ?_⟩
  · rw [hit]
    simpa using updatePage_length d.pages _
  · refine ⟨⟨curr.key, curr.prev, curr.next, insertTokenSorted ⟨tok.id, u⟩ curr.tokens⟩,
      ?_, ?_⟩
    · rw [hit]
      show lookupPage (updatePage d.pages _) curr.key = _
      rw [hupd]
      exact hlu
    · rw [insertTokenSorted_filter]
      have h1 : 0 < (curr.tokens.filter (fun t => t.id == tok.id)).length := by
        have hm : tok ∈ curr.tokens.filter (fun t => t.id == tok.id) :=
          List.mem_filter.mpr ⟨hmem, by simp⟩
        exact List.length_pos_of_mem hm
      have h2 : ((⟨tok.id, u⟩ : TokenEntry).id == tok.id) = true := by simp
      rw [h2, if_pos rfl]
      omega

/-- Witness for C10 at a concrete one-page directory holding one token. -/
theorem C10_duplicate_insert_witness :
    (insertToken ⟨[⟨10, none, none, [⟨7 * 2 ^ 96 + 1, none⟩]⟩], 1⟩ ⟨7 * 2 ^ 96 + 1, none⟩).1 =
      TER.tesSUCCESS ∧
      ∃ p, lookupPage (insertToken ⟨[⟨10, none, none, [⟨7 * 2 ^ 96 + 1, none⟩]⟩], 1⟩
          ⟨7 * 2 ^ 96 + 1, none⟩).2.pages 10 = some p ∧
        2 ≤ (p.tokens.filter (fun t => t.id == 7 * 2 ^ 96 + 1)).length := by
  have h := C10_duplicate_insert ⟨[⟨10, none, none, [⟨7 * 2 ^ 96 + 1, none⟩]⟩], 1⟩
    [] [] ⟨10, none, none, [⟨7 * 2 ^ 96 + 1, none⟩]⟩ ⟨7 * 2 ^ 96 + 1, none⟩ none
    (by decide) rfl (by decide) (by decide)
  exact ⟨h.1, h.2.2.2⟩

theorem relinkPredecessor_length (ps : List Page) (lk : Option Nat) (npKey : Nat) :
    (relinkPredecessor ps lk npKey).length = ps.length := by
  unfold relinkPredecessor
  split
  · rfl
  · split
    · rfl
    · exact updatePage_length _ _

theorem splitFullPage_count (d : Dir) (cp : Page) (id : Nat) (pr : Page × Dir)
    (h : splitFullPage d cp id = some pr) :
    pr.2.ownerCount = d.ownerCount + 1 ∧ pr.2.pages.length = d.pages.length + 1 := by
  simp only [splitFullPage] at h
  split at h
  · exact absurd h (by simp)
  · simp only [Option.some.injEq] at h
    rw [← h]
    refine ⟨rfl, ?_⟩
    show (updatePage (insertPageSorted _ _) _).length = _
    rw [updatePage_length, insertPageSorted_length, relinkPredecessor_length]

theorem getPageForToken_count_pages (d : Dir) (id : Nat) (pr : Page × Dir)
    (h : getPageForToken d id = some pr) :
    (pr.2.ownerCount = d.ownerCount ∧ pr.2.pages.length = d.pages.length) ∨
      (pr.2.ownerCount = d.ownerCount + 1 ∧ pr.2.pages.length = d.pages.length + 1) := by
  unfold getPageForToken at h
  split at h
  · simp only [Option.some.injEq] at h
    right
    rw [← h]
    exact ⟨rfl, by simpa using insertPageSorted_length _ d.pages⟩
  · rename_i cp hloc
    split at h
    · exact Or.inr (splitFullPage_count d cp id pr h)
    · simp only [Option.some.injEq] at h
      left
      rw [← h]
      exact ⟨rfl, rfl⟩

theorem insertToken_count_pages (d : Dir) (nft : TokenEntry) :
    ((insertToken d nft).1 = TER.tecNO_SUITABLE_PAGE ∧ (insertToken d nft).2 = d) ∨
      ((insertToken d nft).1 = TER.tesSUCCESS ∧
        (((insertToken d nft).2.ownerCount = d.ownerCount ∧
            (insertToken d nft).2.pages.length = d.pages.length) ∨
          ((insertToken d nft).2.ownerCount = d.ownerCount + 1 ∧
            (insertToken d nft).2.pages.length = d.pages.length + 1))) := by
  unfold insertToken
  cases hg : getPageForToken d nft.id with
  | none => simp
  | some pr =>
      right
      refine ⟨rfl, ?_⟩
      have hc := getPageForToken_count_pages d nft.id pr hg
      rcases hc with ⟨h1, h2⟩ | ⟨h1, h2⟩
      · exact Or.inl ⟨h1, by simpa [updatePage_length] using h2⟩
      · exact Or.inr ⟨h1, by simpa [updatePage_length] using h2⟩

/-- C5: the mint apply phase uses the issuer's current `minted_tokens`
(0 when absent) as the token sequence of the new identifier, then writes
`minted_tokens = seq + 1`; when the counter sits at `2^32 - 1` the mint
aborts with `tecMAX_SEQUENCE_REACHED`, the counter is not bumped and no
identifier is created. -/
theorem C5_mint_sequence (reserve : Int → Nat) (issuer : Nat) (tx : MintTx) (st : MintState)
    (hm : ∀ m ∈ st.mintedTokens, m < 2 ^ 32) :
    (st.mintedTokens.getD 0 ≠ 2 ^ 32 - 1 →
      (mintDoApply reserve issuer tx st).2.mintedTokens =
        some (st.mintedTokens.getD 0 + 1) ∧
      (mintDoApply reserve issuer tx st).2.dir =
        (insertToken st.dir ⟨createTokenID (tx.flags % 2 ^ 16) tx.transferFee issuer tx.taxon
          (st.mintedTokens.getD 0), tx.uri⟩).2) ∧
    (st.mintedTokens.getD 0 = 2 ^ 32 - 1 →
      mintDoApply reserve issuer tx st = (TER.tecMAX_SEQUENCE_REACHED, st)) := by
  have h32 : (2 : Nat) ^ 32 = 4294967296 := by norm_num
  have hlt : st.mintedTokens.getD 0 < 2 ^ 32 := by
    cases hmt : st.mintedTokens with
    | none => simp [h32]
    | some m => simpa using hm m (by simp [hmt])
  constructor
  · intro hseq
    have hmod : (st.mintedTokens.getD 0 + 1) % 2 ^ 32 = st.mintedTokens.getD 0 + 1 :=
      Nat.mod_eq_of_lt (by rw [h32] at hlt ⊢; rw [h32] at hseq; omega)
    simp only [mintDoApply, hmod]
    rw [if_neg (by omega)]
    constructor
    · by_cases hs : (insertToken st.dir ⟨createTokenID (tx.flags % 2 ^ 16) tx.transferFee
          issuer tx.taxon (st.mintedTokens.getD 0), tx.uri⟩).1 = TER.tesSUCCESS
      · rw [if_pos hs]
        split <;> rfl
      · rw [if_neg hs]
    · by_cases hs : (insertToken st.dir ⟨createTokenID (tx.flags % 2 ^ 16) tx.transferFee
          issuer tx.taxon (st.mintedTokens.getD 0), tx.uri⟩).1 = TER.tesSUCCESS
      · rw [if_pos hs]
        split <;> rfl
      · rw [if_neg hs]
  · intro hseq
    have hmod : (st.mintedTokens.getD 0 + 1) % 2 ^ 32 = 0 := by
      rw [hseq]
      decide
    simp only [mintDoApply, hmod]
    rw [if_pos (by rw [hseq, h32]; norm_num)]

/-- Witness for C5: a counter of 5 is bumped to 6, and a counter at the
32-bit maximum aborts the mint with the state unchanged. -/
theorem C5_mint_sequence_witness :
    (mintDoApply (fun _ => 0) 1 ⟨0, 0, 0, none⟩ ⟨some 5, ⟨[], 0⟩, 0⟩).2.mintedTokens =
      some 6 ∧
    mintDoApply (fun _ => 0) 1 ⟨0, 0, 0, none⟩ ⟨some (2 ^ 32 - 1), ⟨[], 0⟩, 0⟩ =
      (TER.tecMAX_SEQUENCE_REACHED, ⟨some (2 ^ 32 - 1), ⟨[], 0⟩, 0⟩) := by
  constructor
  · have h := (C5_mint_sequence (fun _ => 0) 1 ⟨0, 0, 0, none⟩ ⟨some 5, ⟨[], 0⟩, 0⟩
      (by intro m hm; simp only [Option.mem_def, Option.some.injEq] at hm; subst hm; decide)).1
      (by decide)
    simpa using h.1
  · exact (C5_mint_sequence (fun _ => 0) 1 ⟨0, 0, 0, none⟩ ⟨some (2 ^ 32 - 1), ⟨[], 0⟩, 0⟩
      (by intro m hm; simp only [Option.mem_def, Option.some.injEq] at hm; subst hm; decide)).2
      (by simp)

/-- C6: after a successful insertion the mint enforces the reserve iff
the submitter's owner count strictly increased (exactly the page-created
case, where both the count and the page tally grow by one): then the
result is `tecINSUFFICIENT_RESERVE` precisely when the prior balance is
below `reserve(new_count)`; a mint that lands in an existing page
returns success with no reserve check for any reserve table or balance. -/
theorem C6_mint_reserve (reserve : Int → Nat) (issuer : Nat) (tx : MintTx) (st : MintState)
    (nft : TokenEntry) (r : TER × Dir)
    (hseq : st.mintedTokens.getD 0 ≠ 2 ^ 32 - 1)
    (hlt : st.mintedTokens.getD 0 < 2 ^ 32)
    (hnft : nft = ⟨createTokenID (tx.flags % 2 ^ 16) tx.transferFee issuer tx.taxon
      (st.mintedTokens.getD 0), tx.uri⟩)
    (hr : r = insertToken st.dir nft) :
    (r.1 = TER.tesSUCCESS → r.2.ownerCount > st.dir.ownerCount →
      (mintDoApply reserve issuer tx st).1 =
        (if st.priorBalance < reserve r.2.ownerCount
         then TER.tecINSUFFICIENT_RESERVE else TER.tesSUCCESS) ∧
      r.2.ownerCount = st.dir.ownerCount + 1 ∧
      r.2.pages.length = st.dir.pages.length + 1) ∧
    (r.1 = TER.tesSUCCESS → r.2.ownerCount ≤ st.dir.ownerCount →
      (mintDoApply reserve issuer tx st).1 = TER.tesSUCCESS ∧
      r.2.pages.length = st.dir.pages.length) := by
  have h32 : (2 : Nat) ^ 32 = 4294967296 := by norm_num
  have hmod : (st.mintedTokens.getD 0 + 1) % 2 ^ 32 = st.mintedTokens.getD 0 + 1 :=
    Nat.mod_eq_of_lt (by rw [h32] at hlt ⊢; rw [h32] at hseq; omega)
  have hcount := insertToken_count_pages st.dir nft
  subst hnft
  constructor
  · intro hsucc hgrow
    rw [← hr] at hcount
    rcases hcount with ⟨h1, _⟩ | ⟨h1, h2⟩
    · rw [h1] at hsucc
      exact absurd hsucc (by simp)
    · rcases h2 with ⟨hc, hp⟩ | ⟨hc, hp⟩
      · rw [hc] at hgrow
        omega
      · refine ⟨?_, hc, hp⟩
        simp only [mintDoApply, hmod]
        rw [if_neg (by omega), ← hr, if_pos hsucc]
        by_cases hb : st.priorBalance < reserve r.2.ownerCount
        · rw [if_pos ⟨hgrow, hb⟩, if_pos hb]
        · rw [if_neg (by intro hand; exact hb hand.2), if_neg hb]
  · intro hsucc hsame
    rw [← hr] at hcount
    rcases hcount with ⟨h1, _⟩ | ⟨h1, h2⟩
    · rw [h1] at hsucc
      exact absurd hsucc (by simp)
    · rcases h2 with ⟨hc, hp⟩ | ⟨hc, hp⟩
      · refine ⟨?_, hp⟩
        simp only [mintDoApply, hmod]
        rw [if_neg (by omega), ← hr, if_pos hsucc]
        rw [if_neg (by intro hand; rw [hc] at hand; exact absurd hand.1 (by omega))]
      · rw [hc] at hsame
        omega

/-- Witness for C6: a mint into an empty directory creates a page, and
with balance 0 against reserve 1 the result is the reserve failure. -/
theorem C6_mint_reserve_witness :
    (mintDoApply (fun _ => 1) 1 ⟨0, 0, 0, none⟩ ⟨some 5, ⟨[], 0⟩, 0⟩).1 =
      TER.tecINSUFFICIENT_RESERVE := by
  have h := C6_mint_reserve (fun _ => 1) 1 ⟨0, 0, 0, none⟩ ⟨some 5, ⟨[], 0⟩, 0⟩
    ⟨createTokenID 0 0 1 0 5, none⟩
    (insertToken (⟨[], 0⟩ : Dir) ⟨createTokenID 0 0 1 0 5, none⟩)
    (by decide) (by decide) rfl rfl
  have h1 := (h.1 (by decide) (by decide)).1
  rw [h1]
  decide

theorem transferCut_zero_left (f : Nat) : transferCut 0 f = 0 := by
  simp [transferCut]

theorem transferCut_zero_right (a : Nat) : transferCut a 0 = 0 := by
  simp [transferCut]

theorem transferCut_pos_parts (a f : Nat) (h : transferCut a f ≠ 0) : a ≠ 0 ∧ f ≠ 0 := by
  constructor
  · rintro rfl
    exact h (transferCut_zero_left f)
  · rintro rfl
    exact h (transferCut_zero_right a)

theorem getTransferFee_lt (id : Nat) : getTransferFee id < 100000 := by
  have h : getTransferFee id < 2 ^ 16 := Nat.mod_lt _ (by norm_num)
  omega

theorem transferCut_lt (a f : Nat) (ha : a ≠ 0) (hf : f < 100000) :
    transferCut a f < a := by
  have h1 : a * f < 100000 * a := by
    calc a * f = f * a := Nat.mul_comm a f
    _ < 100000 * a := by
        exact Nat.mul_lt_mul_of_lt_of_le hf (Nat.le_refl a) (by omega)
  exact Nat.div_lt_of_lt_mul h1

/-- C8: the brokered-mode preclaim block accepts exactly when the two
offers reference the same token and asset, the sell amount does not
exceed the buy amount, any sell-side destination equals the buy offer's
owner, and any broker fee shares the buy asset, is strictly below the
buy amount, and leaves at least the sell amount; each violated check
yields `tecBUY_SELL_MISMATCH` or `tecINSUFFICIENT_PAYMENT` as listed. -/
theorem C8_brokered_preclaim (bo so : Offer) (bf : Option Amount) :
    (brokeredPreclaim bo so bf = TER.tesSUCCESS ↔
      (bo.tokenID = so.tokenID ∧ bo.amount.asset = so.amount.asset ∧
        so.amount.value ≤ bo.amount.value ∧
        (∀ dest ∈ so.destination, dest = bo.owner) ∧
        (∀ f ∈ bf, f.asset = bo.amount.asset ∧ f.value < bo.amount.value ∧
          so.amount.value ≤ bo.amount.value - f.value))) ∧
    (bo.tokenID ≠ so.tokenID → brokeredPreclaim bo so bf = TER.tecBUY_SELL_MISMATCH) ∧
    (bo.tokenID = so.tokenID → bo.amount.asset ≠ so.amount.asset →
      brokeredPreclaim bo so bf = TER.tecBUY_SELL_MISMATCH) ∧
    (bo.tokenID = so.tokenID → bo.amount.asset = so.amount.asset →
      bo.amount.value < so.amount.value →
      brokeredPreclaim bo so bf = TER.tecINSUFFICIENT_PAYMENT) ∧
    (bo.tokenID = so.tokenID → bo.amount.asset = so.amount.asset →
      so.amount.value ≤ bo.amount.value →
      ∀ dest, so.destination = some dest → dest ≠ bo.owner →
      brokeredPreclaim bo so bf = TER.tecBUY_SELL_MISMATCH) ∧
    (bo.tokenID = so.tokenID → bo.amount.asset = so.amount.asset →
      so.amount.value ≤ bo.amount.value →
      (∀ dest ∈ so.destination, dest = bo.owner) →
      ∀ f, bf = some f →
        (f.asset ≠ bo.amount.asset →
          brokeredPreclaim bo so bf = TER.tecBUY_SELL_MISMATCH) ∧
        (f.asset = bo.amount.asset → bo.amount.value ≤ f.value →
          brokeredPreclaim bo so bf = TER.tecINSUFFICIENT_PAYMENT) ∧
        (f.asset = bo.amount.asset → f.value < bo.amount.value →
          bo.amount.value - f.value < so.amount.value →
          brokeredPreclaim bo so bf = TER.tecINSUFFICIENT_PAYMENT)) := by
  have hdm : ∀ hdest : (∀ dest ∈ so.destination, dest = bo.owner),
      destMismatch so bo.owner = false := by
    intro hdest
    unfold destMismatch
    cases hd : so.destination with
    | none => rfl
    | some dest => simp [hdest dest (by simp [hd])]
  have h2 : bo.tokenID ≠ so.tokenID →
      brokeredPreclaim bo so bf = TER.tecBUY_SELL_MISMATCH := by
    intro h
    unfold brokeredPreclaim
    rw [if_pos h]
  have h3 : bo.tokenID = so.tokenID → bo.amount.asset ≠ so.amount.asset →
      brokeredPreclaim bo so bf = TER.tecBUY_SELL_MISMATCH := by
    intro h1 h
    unfold brokeredPreclaim
    rw [if_neg (by simp [h1]), if_pos h]
  have h4 : bo.tokenID = so.tokenID → bo.amount.asset = so.amount.asset →
      bo.amount.value < so.amount.value →
      brokeredPreclaim bo so bf = TER.tecINSUFFICIENT_PAYMENT := by
    intro h1 ha h
    unfold brokeredPreclaim
    rw [if_neg (by simp [h1]), if_neg (by simp [ha]), if_pos h]
  have h5 : bo.tokenID = so.tokenID → bo.amount.asset = so.amount.asset →
      so.amount.value ≤ bo.amount.value →
      ∀ dest, so.destination = some dest → dest ≠ bo.owner →
      brokeredPreclaim bo so bf = TER.tecBUY_SELL_MISMATCH := by
    intro h1 ha hv dest hd hne
    unfold brokeredPreclaim
    rw [if_neg (by simp [h1]), if_neg (by simp [ha]), if_neg (by omega),
      if_pos (by unfold destMismatch; rw [hd]; simpa using hne)]
  have h6 : bo.tokenID = so.tokenID → bo.amount.asset = so.amount.asset →
      so.amount.value ≤ bo.amount.value →
      (∀ dest ∈ so.destination, dest = bo.owner) →
      ∀ f, bf = some f →
        (f.asset ≠ bo.amount.asset →
          brokeredPreclaim bo so bf = TER.tecBUY_SELL_MISMATCH) ∧
        (f.asset = bo.amount.asset → bo.amount.value ≤ f.value →
          brokeredPreclaim bo so bf = TER.tecINSUFFICIENT_PAYMENT) ∧
        (f.asset = bo.amount.asset → f.value < bo.amount.value →
          bo.amount.value - f.value < so.amount.value →
          brokeredPreclaim bo so bf = TER.tecINSUFFICIENT_PAYMENT) := by
    intro h1 ha hv hdest f hf
    subst hf
    have key : brokeredPreclaim bo so (some f) =
        (if f.asset ≠ bo.amount.asset then TER.tecBUY_SELL_MISMATCH
         else if f.value ≥ bo.amount.value then TER.tecINSUFFICIENT_PAYMENT
         else if so.amount.value > bo.amount.value - f.value then TER.tecINSUFFICIENT_PAYMENT
         else TER.tesSUCCESS) := by
      unfold brokeredPreclaim
      rw [if_neg (by simp [h1]), if_neg (by simp [ha]), if_neg (by omega),
        if_neg (by simp [hdm hdest])]
    refine ⟨?_, ?_, ?_⟩
    · intro h
      rw [key, if_pos h]
    · intro ha2 h
      rw [key, if_neg (by simp [ha2]), if_pos (by omega)]
    · intro ha2 hlt h
      rw [key, if_neg (by simp [ha2]), if_neg (by omega), if_pos (by omega)]
  refine ⟨⟨?_, ?_⟩, h2, h3, h4, h5, h6⟩
  · intro h
    have c1 : bo.tokenID = so.tokenID := by
      by_contra hc
      rw [h2 hc] at h
      exact absurd h (by simp)
    have c2 : bo.amount.asset = so.amount.asset := by
      by_contra hc
      rw [h3 c1 hc] at h
      exact absurd h (by simp)
    have c3 : so.amount.value ≤ bo.amount.value := by
      by_contra hc
      rw [h4 c1 c2 (by omega)] at h
      exact absurd h (by simp)
    have c4 : ∀ dest ∈ so.destination, dest = bo.owner := by
      intro dest hd
      by_contra hc
      rw [h5 c1 c2 c3 dest (by simpa using hd) hc] at h
      exact absurd h (by simp)
    refine ⟨c1, c2, c3, c4, ?_⟩
    intro f hf
    have hf' : bf = some f := by simpa using hf
    have hx := h6 c1 c2 c3 c4 f hf'
    have d1 : f.asset = bo.amount.asset := by
      by_contra hc
      rw [hx.1 hc] at h
      exact absurd h (by simp)
    have d2 : f.value < bo.amount.value := by
      by_contra hc
      rw [hx.2.1 d1 (by omega)] at h
      exact absurd h (by simp)
    have d3 : so.amount.value ≤ bo.amount.value - f.value := by
      by_contra hc
      rw [hx.2.2 d1 d2 (by omega)] at h
      exact absurd h (by simp)
    exact ⟨d1, d2, d3⟩
  · rintro ⟨c1, c2, c3, c4, c5⟩
    cases hbf : bf with
    | none =>
        unfold brokeredPreclaim
        rw [if_neg (by simp [c1]), if_neg (by simp [c2]), if_neg (by omega),
          if_neg (by simp [hdm c4])]
    | some f =>
        have hc := c5 f (by simp [hbf])
        have key : brokeredPreclaim bo so (some f) =
            (if f.asset ≠ bo.amount.asset then TER.tecBUY_SELL_MISMATCH
             else if f.value ≥ bo.amount.value then TER.tecINSUFFICIENT_PAYMENT
             else if so.amount.value > bo.amount.value - f.value then
               TER.tecINSUFFICIENT_PAYMENT
             else TER.tesSUCCESS) := by
          unfold brokeredPreclaim
          rw [if_neg (by simp [c1]), if_neg (by simp [c2]), if_neg (by omega),
            if_neg (by simp [hdm c4])]
        rw [key, if_neg (by simp [hc.1]), if_neg (by omega), if_neg (by omega)]

/-- Witness for C8: a concrete brokered preclaim that passes all checks,
and one rejected for an oversized broker fee. -/
theorem C8_brokered_preclaim_witness :
    brokeredPreclaim ⟨2, 9, ⟨5, 1000⟩, 0, none⟩ ⟨3, 9, ⟨5, 900⟩, 1, none⟩ (some ⟨5, 100⟩) =
      TER.tesSUCCESS ∧
    brokeredPreclaim ⟨2, 9, ⟨5, 1000⟩, 0, none⟩ ⟨3, 9, ⟨5, 900⟩, 1, none⟩ (some ⟨5, 1000⟩) =
      TER.tecINSUFFICIENT_PAYMENT := by
  constructor
  · exact (C8_brokered_preclaim ⟨2, 9, ⟨5, 1000⟩, 0, none⟩ ⟨3, 9, ⟨5, 900⟩, 1, none⟩
      (some ⟨5, 100⟩)).1.mpr (by constructor <;> simp)
  · exact ((C8_brokered_preclaim ⟨2, 9, ⟨5, 1000⟩, 0, none⟩ ⟨3, 9, ⟨5, 900⟩, 1, none⟩
      (some ⟨5, 1000⟩)).2.2.2.2.2 rfl rfl (by simp) (by simp) ⟨5, 1000⟩ rfl).2.1 rfl
      (by simp)

theorem headD_drop (l : List TokenEntry) (i : Nat) (d : TokenEntry) :
    (l.drop i).headD d = l.getD i d := by
  induction l generalizing i with
  | nil => simp
  | cons a l ih =>
      cases i with
      | zero => simp
      | succ n =>
          rw [List.drop_succ_cons, List.getD_cons_succ]
          exact ih n

theorem getD_mem (l : List TokenEntry) (i : Nat) (d : TokenEntry) (h : i < l.length) :
    l.getD i d ∈ l := by
  induction l generalizing i with
  | nil => simp at h
  | cons a l ih =>
      cases i with
      | zero => simp
      | succ n =>
          simp only [List.getD_cons_succ]
          exact List.mem_cons_of_mem a (ih n (by simpa using h))

theorem pagesBounded_upper (lo : Option Nat) (ps : List Page)
    (h : pagesBoundedB lo ps = true) :
    ∀ p ∈ ps, ∀ t ∈ p.tokens, pagePfx t.id < p.key := by
  induction ps generalizing lo with
  | nil => simp
  | cons q ps ih =>
      intro p hp t ht
      rw [show pagesBoundedB lo (q :: ps) =
        (pageBoundsB lo q && pagesBoundedB (some q.key) ps) from rfl] at h
      simp only [Bool.and_eq_true] at h
      rcases List.mem_cons.mp hp with rfl | hmem
      · exact (pageBounds_token lo p t h.1 ht).2
      · exact ih (some q.key) h.2 p hmem t ht

theorem lookupPage_updatePage_self (ps : List Page) (p q : Page)
    (h : lookupPage ps p.key = some q) :
    lookupPage (updatePage ps p) p.key = some p := by
  induction ps with
  | nil => simp [lookupPage] at h
  | cons a ps ih =>
      rw [lookupPage_cons] at h
      simp only [updatePage, List.map_cons]
      by_cases ha : a.key = p.key
      · rw [if_pos (by simpa using ha)]
        rw [lookupPage_cons, if_pos (by simp)]
      · rw [if_neg (by simpa using ha)]
        rw [lookupPage_cons, if_neg (by simpa using ha)]
        rw [if_neg (by simpa using ha)] at h
        exact ih h

theorem lookupPage_updatePage_ne (ps : List Page) (p : Page) (k : Nat) (hk : k ≠ p.key) :
    lookupPage (updatePage ps p) k = lookupPage ps k := by
  induction ps with
  | nil => rfl
  | cons a ps ih =>
      simp only [updatePage, List.map_cons]
      by_cases ha : a.key = p.key
      · rw [if_pos (by simpa using ha)]
        rw [lookupPage_cons, lookupPage_cons,
          if_neg (by simp; omega), if_neg (by simp; omega)]
        exact ih
      · rw [if_neg (by simpa using ha)]
        rw [lookupPage_cons, lookupPage_cons]
        by_cases hak : a.key = k
        · rw [if_pos (by simpa using hak), if_pos (by simpa using hak)]
        · rw [if_neg (by simpa using hak), if_neg (by simpa using hak)]
          exact ih

theorem relinkPredecessor_keys (ps : List Page) (lk : Option Nat) (k : Nat) :
    pageKeys (relinkPredecessor ps lk k) = pageKeys ps := by
  unfold relinkPredecessor
  split
  · rfl
  · split
    · rfl
    · exact updatePage_keys _ _

theorem keys_ne_of_keys_eq (ps1 ps2 : List Page) (x : Nat)
    (hkeys : pageKeys ps1 = pageKeys ps2)
    (hnocol : ∀ p ∈ ps2, p.key ≠ x) : ∀ q ∈ ps1, q.key ≠ x := by
  intro q hq
  have hmem : q.key ∈ pageKeys ps2 := by
    rw [← hkeys]
    exact List.mem_map_of_mem Page.key hq
  obtain ⟨p, hp, hpk⟩ := List.mem_map.mp hmem
  rw [← hpk]
  exact hnocol p hp

theorem prev_lt_key (d : Dir) (cp : Page) (ppm : Nat)
    (hks : keysSortedB d.pages = true) (hlk : linksOkB d.pages = true)
    (hmem : cp ∈ d.pages) (hppm : cp.prev = some ppm) : ppm < cp.key := by
  obtain ⟨l1, l2, hsplit⟩ := List.append_of_mem hmem
  rw [hsplit] at hks hlk
  have hd := linksOk_decomp l1 cp l2 hlk
  rw [hppm] at hd
  cases hl : l1.getLast? with
  | none =>
      rw [hl] at hd
      simp at hd
  | some pv =>
      rw [hl] at hd
      have hppv : ppm = pv.key := by
        have h := hd.1
        simp at h
        exact h
      have hpv_mem : pv ∈ l1 := mem_of_getLast?_eq _ _ hl
      have hpair := keysSorted_pairwise _ hks
      have hcross := (List.pairwise_append.mp hpair).2.2 pv hpv_mem cp (by simp)
      omega

theorem getPageForToken_eq_full (d : Dir) (id : Nat) (cp : Page)
    (hloc : locatePage d.pages id = some cp)
    (hfull : cp.tokens.length = dirMaxTokensPerPage) :
    getPageForToken d id = splitFullPage d cp id := by
  unfold getPageForToken
  rw [hloc]
  show (if cp.tokens.length = dirMaxTokensPerPage then splitFullPage d cp id
    else some (cp, d)) = splitFullPage d cp id
  rw [if_pos hfull]

theorem splitFullPage_eq (d : Dir) (cp : Page) (id : Nat) (i : Nat)
    (hsi : splitIndex cp.tokens = i) (hvalid : ¬(i = 0 ∨ i ≥ cp.tokens.length)) :
    splitFullPage d cp id =
      some ((if pagePfx id ≤ pagePfx ((cp.tokens.getD i default).id)
        then (⟨pagePfx ((cp.tokens.getD i default).id), cp.prev, some cp.key,
          cp.tokens.take i⟩ : Page)
        else ⟨cp.key, some (pagePfx ((cp.tokens.getD i default).id)), cp.next,
          cp.tokens.drop i⟩),
        ⟨updatePage (insertPageSorted
            ⟨pagePfx ((cp.tokens.getD i default).id), cp.prev, some cp.key, cp.tokens.take i⟩
            (relinkPredecessor d.pages cp.prev (pagePfx ((cp.tokens.getD i default).id))))
          ⟨cp.key, some (pagePfx ((cp.tokens.getD i default).id)), cp.next, cp.tokens.drop i⟩,
        d.ownerCount + 1⟩) := by
  simp only [splitFullPage]
  rw [hsi, if_neg hvalid, headD_drop]

/-- C1 amended: splitting a located full page moves `tokens[0..i)` onto
a newly created lower page whose key is `page_key(O, page_prefix(tokens[i]))`
— the masked identifier of the first entry that stays behind (`carr[0]`),
not of `tokens[0]`.  The new page takes the old page's `prev_page` and
points forward at it; the old page's `prev_page` becomes the new page;
the old predecessor (if any) is pointed at the new page; the owner count
and the page tally grow by one. -/
theorem C1_amended_split (d : Dir) (cp : Page) (id : Nat) (i : Nat)
    (hinv : dirInvariantB d = true)
    (hloc : locatePage d.pages id = some cp)
    (hfull : cp.tokens.length = dirMaxTokensPerPage)
    (hsi : splitIndex cp.tokens = i) (h0 : 0 < i) (hilt : i < dirMaxTokensPerPage)
    (hnocol : ∀ p ∈ d.pages, p.key ≠ pagePfx ((cp.tokens.getD i default).id)) :
    ∃ d', getPageForToken d id =
      some ((if pagePfx id ≤ pagePfx ((cp.tokens.getD i default).id)
        then (⟨pagePfx ((cp.tokens.getD i default).id), cp.prev, some cp.key,
          cp.tokens.take i⟩ : Page)
        else ⟨cp.key, some (pagePfx ((cp.tokens.getD i default).id)), cp.next,
          cp.tokens.drop i⟩), d') ∧
      d'.ownerCount = d.ownerCount + 1 ∧
      d'.pages.length = d.pages.length + 1 ∧
      lookupPage d'.pages (pagePfx ((cp.tokens.getD i default).id)) =
        some ⟨pagePfx ((cp.tokens.getD i default).id), cp.prev, some cp.key,
          cp.tokens.take i⟩ ∧
      lookupPage d'.pages cp.key =
        some ⟨cp.key, some (pagePfx ((cp.tokens.getD i default).id)), cp.next,
          cp.tokens.drop i⟩ ∧
      (∀ ppm p3, cp.prev = some ppm → lookupPage d.pages ppm = some p3 →
        lookupPage d'.pages ppm =
          some ⟨p3.key, p3.prev, some (pagePfx ((cp.tokens.getD i default).id)),
            p3.tokens⟩) := by
  obtain ⟨hks, hlk, _, _, hbd, _⟩ := dirInvariant_parts d hinv
  have hcpmem : cp ∈ d.pages := List.mem_of_find?_eq_some hloc
  have hnd := keysSorted_nodup _ hks
  have hvalid : ¬(i = 0 ∨ i ≥ cp.tokens.length) := by
    rw [hfull]
    omega
  have hcpne : cp.key ≠ pagePfx ((cp.tokens.getD i default).id) := hnocol cp hcpmem
  have hkeq : pageKeys (relinkPredecessor d.pages cp.prev
      (pagePfx ((cp.tokens.getD i default).id))) = pageKeys d.pages :=
    relinkPredecessor_keys _ _ _
  have hps1ne : ∀ q ∈ relinkPredecessor d.pages cp.prev
      (pagePfx ((cp.tokens.getD i default).id)), q.key ≠
      pagePfx ((cp.tokens.getD i default).id) :=
    keys_ne_of_keys_eq _ _ _ hkeq hnocol
  have hlookup_cp : lookupPage d.pages cp.key = some cp := by
    obtain ⟨l1, l2, hsplit⟩ := List.append_of_mem hcpmem
    rw [hsplit]
    rw [hsplit] at hnd
    exact lookupPage_self_of_nodup l1 l2 cp hnd
  have hps1_cp : lookupPage (relinkPredecessor d.pages cp.prev
      (pagePfx ((cp.tokens.getD i default).id))) cp.key = some cp := by
    cases hp : cp.prev with
    | none => exact hlookup_cp
    | some ppm =>
        cases hl3 : lookupPage d.pages ppm with
        | none =>
            have heq : relinkPredecessor d.pages (some ppm)
                (pagePfx ((cp.tokens.getD i default).id)) = d.pages := by
              show (match lookupPage d.pages ppm with
                | none => d.pages
                | some p3 => updatePage d.pages ⟨p3.key, p3.prev,
                    some (pagePfx ((cp.tokens.getD i default).id)), p3.tokens⟩) = d.pages
              rw [hl3]
            rw [heq]
            exact hlookup_cp
        | some p3 =>
            have heq : relinkPredecessor d.pages (some ppm)
                (pagePfx ((cp.tokens.getD i default).id)) =
                updatePage d.pages ⟨p3.key, p3.prev,
                  some (pagePfx ((cp.tokens.getD i default).id)), p3.tokens⟩ := by
              show (match lookupPage d.pages ppm with
                | none => d.pages
                | some p3 => updatePage d.pages ⟨p3.key, p3.prev,
                    some (pagePfx ((cp.tokens.getD i default).id)), p3.tokens⟩) = _
              rw [hl3]
            have hppmlt := prev_lt_key d cp ppm hks hlk hcpmem hp
            have hp3key : p3.key = ppm := by
              have := List.find?_some hl3
              simpa using this
            rw [heq, lookupPage_updatePage_ne d.pages
              ⟨p3.key, p3.prev, some (pagePfx ((cp.tokens.getD i default).id)), p3.tokens⟩
              cp.key (show cp.key ≠ p3.key by omega)]
            exact hlookup_cp
  rw [getPageForToken_eq_full d id cp hloc hfull, splitFullPage_eq d cp id i hsi hvalid]
  refine ⟨_, rfl, rfl, ?_, ?_, ?_, ?_⟩
  · show (updatePage (insertPageSorted _ _) _).length = _
    rw [updatePage_length, insertPageSorted_length, relinkPredecessor_length]
  · rw [lookupPage_updatePage_ne _
      ⟨cp.key, some (pagePfx ((cp.tokens.getD i default).id)), cp.next, cp.tokens.drop i⟩
      _ (fun hh => hcpne hh.symm)]
    exact lookupPage_insertPageSorted_self _ _ hps1ne
  · have h1 : lookupPage (insertPageSorted
        ⟨pagePfx ((cp.tokens.getD i default).id), cp.prev, some cp.key, cp.tokens.take i⟩
        (relinkPredecessor d.pages cp.prev (pagePfx ((cp.tokens.getD i default).id))))
        cp.key = some cp := by
      rw [lookupPage_insertPageSorted_ne
        ⟨pagePfx ((cp.tokens.getD i default).id), cp.prev, some cp.key, cp.tokens.take i⟩
        _ _ hcpne]
      exact hps1_cp
    exact lookupPage_updatePage_self _ _ _ h1
  · intro ppm p3 hp hl3
    have hppmlt := prev_lt_key d cp ppm hks hlk hcpmem hp
    have hp3key : p3.key = ppm := by
      have := List.find?_some hl3
      simpa using this
    have hp3mem : p3 ∈ d.pages := List.mem_of_find?_eq_some hl3
    have hppm_ne_np : ppm ≠ pagePfx ((cp.tokens.getD i default).id) := by
      have := hnocol p3 hp3mem
      omega
    have hps1eq : relinkPredecessor d.pages cp.prev
        (pagePfx ((cp.tokens.getD i default).id)) =
        updatePage d.pages ⟨p3.key, p3.prev,
          some (pagePfx ((cp.tokens.getD i default).id)), p3.tokens⟩ := by
      rw [show relinkPredecessor d.pages cp.prev (pagePfx ((cp.tokens.getD i default).id)) =
        relinkPredecessor d.pages (some ppm) (pagePfx ((cp.tokens.getD i default).id)) by
          rw [hp]]
      show (match lookupPage d.pages ppm with
        | none => d.pages
        | some p3 => updatePage d.pages ⟨p3.key, p3.prev,
            some (pagePfx ((cp.tokens.getD i default).id)), p3.tokens⟩) = _
      rw [hl3]
    rw [lookupPage_updatePage_ne _
      ⟨cp.key, some (pagePfx ((cp.tokens.getD i default).id)), cp.next, cp.tokens.drop i⟩
      _ (show ppm ≠ cp.key by omega)]
    rw [lookupPage_insertPageSorted_ne
      ⟨pagePfx ((cp.tokens.getD i default).id), cp.prev, some cp.key, cp.tokens.take i⟩
      _ _ hppm_ne_np]
    rw [hps1eq]
    have hlp : lookupPage d.pages p3.key = some p3 := by
      rw [hp3key]
      exact hl3
    have hfin := lookupPage_updatePage_self d.pages
      ⟨p3.key, p3.prev, some (pagePfx ((cp.tokens.getD i default).id)), p3.tokens⟩ p3 hlp
    rw [← hp3key]
    exact hfin

/-- Witness for C1's amended theorem: the 32-token page with masked
identifiers 1..32 splits at index 16; the new page gets entries 0..15
yet carries key 17 (the masked identifier of entry 16), and the old
page keeps entries 16..31 with its `prev_page` pointing at the new
page. -/
theorem C1_amended_split_witness :
    ∃ d', getPageForToken ⟨[⟨100, none, none,
        (List.range 32).map (fun j => (⟨(j + 1) * 2 ^ 96, none⟩ : TokenEntry))⟩], 1⟩
        (50 * 2 ^ 96) =
      some ((⟨100, some 17, none,
        ((List.range 32).map (fun j => (⟨(j + 1) * 2 ^ 96, none⟩ : TokenEntry))).drop 16⟩ :
          Page), d') ∧
      d'.ownerCount = 2 ∧
      d'.pages.length = 2 ∧
      lookupPage d'.pages 17 = some ⟨17, none, some 100,
        ((List.range 32).map (fun j => (⟨(j + 1) * 2 ^ 96, none⟩ : TokenEntry))).take 16⟩ := by
  obtain ⟨d', h1, h2, h3, h4, _⟩ := C1_amended_split
    ⟨[⟨100, none, none,
      (List.range 32).map (fun j => (⟨(j + 1) * 2 ^ 96, none⟩ : TokenEntry))⟩], 1⟩
    ⟨100, none, none, (List.range 32).map (fun j => (⟨(j + 1) * 2 ^ 96, none⟩ : TokenEntry))⟩
    (50 * 2 ^ 96) 16
    (by decide) (by decide) (by decide) (by decide) (by decide) (by decide) (by decide)
  refine ⟨d', ?_, by rw [h2]; decide, by rw [h3]; rfl, ?_⟩
  · rw [h1]
    exact congrArg (fun x => some (x, d')) (by decide)
  · have hnp : pagePfx ((((List.range 32).map
        (fun j => (⟨(j + 1) * 2 ^ 96, none⟩ : TokenEntry))).getD 16 default).id) = 17 := by
      decide
    rw [hnp] at h4
    exact h4

theorem findIdx_char (p : TokenEntry → Bool) (l : List TokenEntry) :
    (l.findIdx p = l.length ∧ ∀ x ∈ l, p x = false) ∨
      (l.findIdx p < l.length ∧ p (l.getD (l.findIdx p) default) = true ∧
        ∀ k < l.findIdx p, p (l.getD k default) = false) := by
  induction l with
  | nil => exact Or.inl ⟨rfl, by simp⟩
  | cons a l ih =>
      by_cases hp : p a = true
      · right
        have h0 : (a :: l).findIdx p = 0 := by simp [List.findIdx_cons, hp]
        rw [h0]
        exact ⟨by simp, by simpa using hp, by omega⟩
      · have hstep : (a :: l).findIdx p = l.findIdx p + 1 := by
          simp [List.findIdx_cons, Bool.eq_false_iff.mpr hp]
        rcases ih with ⟨h1, h2⟩ | ⟨h1, h2, h3⟩
        · left
          refine ⟨by simp [hstep, h1], ?_⟩
          intro x hx
          rcases List.mem_cons.mp hx with rfl | hm
          · exact Bool.eq_false_iff.mpr hp
          · exact h2 x hm
        · right
          rw [hstep]
          refine ⟨by simpa using h1, by simpa using h2, ?_⟩
          intro k hk
          cases k with
          | zero => exact Bool.eq_false_iff.mpr hp
          | succ n =>
              rw [List.getD_cons_succ]
              exact h3 n (by omega)

theorem getD_drop (l : List TokenEntry) (n k : Nat) (d : TokenEntry) :
    (l.drop n).getD k d = l.getD (n + k) d := by
  induction l generalizing n with
  | nil => simp
  | cons a l ih =>
      cases n with
      | zero => simp
      | succ m =>
          rw [List.drop_succ_cons, ih m]
          rw [show Nat.succ m + k = Nat.succ (m + k) by omega]
          rw [List.getD_cons_succ]

theorem mem_getD_index (l : List TokenEntry) (x : TokenEntry) (h : x ∈ l) :
    ∃ k, k < l.length ∧ l.getD k default = x := by
  induction l with
  | nil => simp at h
  | cons a l ih =>
      rcases List.mem_cons.mp h with rfl | hm
      · exact ⟨0, by simp, rfl⟩
      · obtain ⟨k, hk, he⟩ := ih hm
        exact ⟨k + 1, by simpa using hk, by simpa using he⟩

theorem splitIndex_eq (toks : List TokenEntry) :
    splitIndex toks =
      (if 16 + (toks.drop 16).findIdx
          (fun o => decide (pagePfx o.id ≠ pagePfx ((toks.getD 15 default).id))) ≥ toks.length
       then toks.findIdx (fun o => decide (pagePfx o.id = pagePfx ((toks.getD 15 default).id)))
       else 16 + (toks.drop 16).findIdx
          (fun o => decide (pagePfx o.id ≠ pagePfx ((toks.getD 15 default).id)))) := rfl

/-- C2: on a full page of 32 tokens, with `cmp` the masked identifier of
entry 15, the split index is the first index at or above 16 whose masked
identifier differs from `cmp`; when the whole upper half equals `cmp` it
is instead the first index from the front whose masked identifier equals
`cmp`; an index of 0 or one past the end makes the insertion fail with
`tecNO_SUITABLE_PAGE` — in particular a 33rd token equivalent to 32
equivalent residents is rejected. -/
theorem C2_split_index (toks : List TokenEntry)
    (hlen : toks.length = dirMaxTokensPerPage) :
    ((∃ j, 16 ≤ j ∧ j < 32 ∧
        pagePfx ((toks.getD j default).id) ≠ pagePfx ((toks.getD 15 default).id)) →
      16 ≤ splitIndex toks ∧ splitIndex toks < 32 ∧
        pagePfx ((toks.getD (splitIndex toks) default).id) ≠
          pagePfx ((toks.getD 15 default).id) ∧
        (∀ k, 16 ≤ k → k < splitIndex toks →
          pagePfx ((toks.getD k default).id) = pagePfx ((toks.getD 15 default).id))) ∧
    ((∀ j, 16 ≤ j → j < 32 →
        pagePfx ((toks.getD j default).id) = pagePfx ((toks.getD 15 default).id)) →
      splitIndex toks < 32 ∧
        pagePfx ((toks.getD (splitIndex toks) default).id) =
          pagePfx ((toks.getD 15 default).id) ∧
        (∀ k, k < splitIndex toks →
          pagePfx ((toks.getD k default).id) ≠ pagePfx ((toks.getD 15 default).id))) ∧
    ((∀ t ∈ toks, pagePfx t.id = pagePfx ((toks.getD 15 default).id)) →
      splitIndex toks = 0) ∧
    (splitIndex toks = 0 ∨ splitIndex toks ≥ toks.length →
      ∀ (d : Dir) (P : Page) (T : Nat) (u : Option Nat),
        locatePage d.pages T = some P → P.tokens = toks →
        insertToken d ⟨T, u⟩ = (TER.tecNO_SUITABLE_PAGE, d)) := by
  have hlen32 : toks.length = 32 := hlen
  have hdlen : (toks.drop 16).length = 16 := by simp [hlen32]
  have hmain2 : (∀ j, 16 ≤ j → j < 32 →
      pagePfx ((toks.getD j default).id) = pagePfx ((toks.getD 15 default).id)) →
      splitIndex toks < 32 ∧
        pagePfx ((toks.getD (splitIndex toks) default).id) =
          pagePfx ((toks.getD 15 default).id) ∧
        (∀ k, k < splitIndex toks →
          pagePfx ((toks.getD k default).id) ≠ pagePfx ((toks.getD 15 default).id)) := by
    intro hall
    have hfid : (toks.drop 16).findIdx
        (fun o => decide (pagePfx o.id ≠ pagePfx ((toks.getD 15 default).id))) = 16 := by
      rcases findIdx_char
          (fun o => decide (pagePfx o.id ≠ pagePfx ((toks.getD 15 default).id)))
          (toks.drop 16) with ⟨h1, _⟩ | ⟨h1, h2, _⟩
      · rw [h1, hdlen]
      · exfalso
        rw [hdlen] at h1
        rw [getD_drop] at h2
        have heq := hall (16 + (toks.drop 16).findIdx
          (fun o => decide (pagePfx o.id ≠ pagePfx ((toks.getD 15 default).id))))
          (by omega) (by omega)
        simp only [decide_eq_true_eq] at h2
        exact h2 heq
    have hsieq : splitIndex toks = toks.findIdx
        (fun o => decide (pagePfx o.id = pagePfx ((toks.getD 15 default).id))) := by
      rw [splitIndex_eq, hfid, if_pos (by omega)]
    rcases findIdx_char
        (fun o => decide (pagePfx o.id = pagePfx ((toks.getD 15 default).id)))
        toks with ⟨h1, h2⟩ | ⟨h1, h2, h3⟩
    · exfalso
      have hm : toks.getD 15 default ∈ toks := getD_mem _ _ _ (by omega)
      have := h2 _ hm
      simp at this
    · rw [hsieq]
      refine ⟨by omega, by simpa using h2, ?_⟩
      intro k hk
      have := h3 k hk
      simpa using this
  refine ⟨?_, hmain2, ?_, ?_⟩
  · rintro ⟨j, hj1, hj2, hjne⟩
    rcases findIdx_char
        (fun o => decide (pagePfx o.id ≠ pagePfx ((toks.getD 15 default).id)))
        (toks.drop 16) with ⟨h1, h2⟩ | ⟨h1, h2, h3⟩
    · exfalso
      have hmem : (toks.drop 16).getD (j - 16) default ∈ toks.drop 16 :=
        getD_mem _ _ _ (by omega)
      have hfalse := h2 _ hmem
      rw [getD_drop, show 16 + (j - 16) = j by omega] at hfalse
      simp only [decide_eq_false_iff_not, Decidable.not_not] at hfalse
      exact hjne hfalse
    · rw [hdlen] at h1
      have hsieq : splitIndex toks = 16 + (toks.drop 16).findIdx
          (fun o => decide (pagePfx o.id ≠ pagePfx ((toks.getD 15 default).id))) := by
        rw [splitIndex_eq, if_neg (by omega)]
      rw [getD_drop] at h2
      refine ⟨by omega, by omega, ?_, ?_⟩
      · rw [hsieq]
        simpa using h2
      · intro k hk1 hk2
        rw [hsieq] at hk2
        have := h3 (k - 16) (by omega)
        rw [getD_drop, show 16 + (k - 16) = k by omega] at this
        simpa using this
  · intro hall
    have h2c := hmain2 (fun j hj1 hj2 =>
      hall (toks.getD j default) (getD_mem _ _ _ (by omega)))
    by_contra h0
    have h00 : 0 < splitIndex toks := Nat.pos_of_ne_zero h0
    exact (h2c.2.2 0 h00) (hall (toks.getD 0 default) (getD_mem _ _ _ (by omega)))
  · intro hfail d P T u hloc hPtoks
    have hfull : P.tokens.length = dirMaxTokensPerPage := by
      rw [hPtoks]
      exact hlen
    have hgp : getPageForToken d T = none := by
      rw [getPageForToken_eq_full d T P hloc hfull]
      simp only [splitFullPage]
      rw [hPtoks]
      rw [if_pos hfail]
    unfold insertToken
    rw [show (⟨T, u⟩ : TokenEntry).id = T from rfl, hgp]

/-- Witness for C2: a full page of 32 tokens sharing masked identifier 5
rejects a 33rd token with the same masked identifier. -/
theorem C2_split_index_witness :
    insertToken ⟨[⟨100, none, none,
      (List.range 32).map (fun j => (⟨5 * 2 ^ 96 + j, none⟩ : TokenEntry))⟩], 1⟩
      ⟨5 * 2 ^ 96 + 77, none⟩ =
      (TER.tecNO_SUITABLE_PAGE,
        ⟨[⟨100, none, none,
          (List.range 32).map (fun j => (⟨5 * 2 ^ 96 + j, none⟩ : TokenEntry))⟩], 1⟩) := by
  have h := C2_split_index
    ((List.range 32).map (fun j => (⟨5 * 2 ^ 96 + j, none⟩ : TokenEntry))) (by decide)
  exact h.2.2.2 (Or.inl (h.2.2.1 (by decide))) _
    ⟨100, none, none, (List.range 32).map (fun j => (⟨5 * 2 ^ 96 + j, none⟩ : TokenEntry))⟩
    _ _ (by decide) rfl

/-- C4 amended: the issuer cut `round_down(amount * fee / 100000)` is
paid from buyer to issuer and deducted from the amount — in the direct
path exactly when the cut is strictly positive and neither party is the
issuer; in the brokered path the zero-cut guard is absent, so the issuer
payment instruction (possibly zero-valued) is emitted exactly when the
post-broker amount and the transfer fee are nonzero and neither party is
the issuer.  In both paths the amount forwarded to the seller is reduced
by the cut exactly when the issuer payment is made. -/
theorem C4_amended_issuer_cut (submitter : Nat) (offer bo so : Offer) (bf : Option Amount)
    (sdd bdd sdb bdb : Dir) (rd rb : SettleResult) (amt1 : Nat)
    (hrd : rd = acceptOffer submitter offer sdd bdd)
    (hrb : rb = brokeredApply submitter bo so bf sdb bdb)
    (hamt1 : amt1 = postBrokerAmount bo bf) :
    (rd.issuerPay ≠ none ↔
      0 < transferCut offer.amount.value (getTransferFee offer.tokenID) ∧
        (if isSellOffer offer then offer.owner else submitter) ≠ getIssuer offer.tokenID ∧
        (if isSellOffer offer then submitter else offer.owner) ≠ getIssuer offer.tokenID) ∧
    (rd.issuerPay ≠ none →
      rd.issuerPay = some ⟨(if isSellOffer offer then submitter else offer.owner),
        getIssuer offer.tokenID,
        transferCut offer.amount.value (getTransferFee offer.tokenID)⟩ ∧
      rd.sellerPay = some ⟨(if isSellOffer offer then submitter else offer.owner),
        (if isSellOffer offer then offer.owner else submitter),
        offer.amount.value - transferCut offer.amount.value (getTransferFee offer.tokenID)⟩) ∧
    (rd.issuerPay = none →
      rd.sellerPay = (if offer.amount.value ≠ 0 then
        some ⟨(if isSellOffer offer then submitter else offer.owner),
          (if isSellOffer offer then offer.owner else submitter), offer.amount.value⟩
        else none)) ∧
    (rb.issuerPay ≠ none ↔
      amt1 ≠ 0 ∧ getTransferFee so.tokenID ≠ 0 ∧
        so.owner ≠ getIssuer so.tokenID ∧ bo.owner ≠ getIssuer so.tokenID) ∧
    (rb.issuerPay ≠ none →
      rb.issuerPay = some ⟨bo.owner, getIssuer so.tokenID,
        transferCut amt1 (getTransferFee so.tokenID)⟩ ∧
      rb.sellerPay = (if 0 < amt1 - transferCut amt1 (getTransferFee so.tokenID) then
        some ⟨bo.owner, so.owner, amt1 - transferCut amt1 (getTransferFee so.tokenID)⟩
        else none)) ∧
    (rb.issuerPay = none →
      rb.sellerPay = (if 0 < amt1 then some ⟨bo.owner, so.owner, amt1⟩ else none)) := by
  subst hrd hrb hamt1
  simp only [acceptOffer, brokeredApply]
  refine ⟨?_, ?_, ?_, ?_, ?_, ?_⟩
  · by_cases hp : offer.amount.value ≠ 0 ∧ getTransferFee offer.tokenID ≠ 0 ∧
        transferCut offer.amount.value (getTransferFee offer.tokenID) ≠ 0 ∧
        (if isSellOffer offer then offer.owner else submitter) ≠ getIssuer offer.tokenID ∧
        (if isSellOffer offer then submitter else offer.owner) ≠ getIssuer offer.tokenID
    · rw [if_pos hp]
      constructor
      · intro _
        exact ⟨Nat.pos_of_ne_zero hp.2.2.1, hp.2.2.2.1, hp.2.2.2.2⟩
      · intro _
        simp
    · rw [if_neg hp]
      constructor
      · intro h
        exact absurd rfl h
      · rintro ⟨hc, hs, hb⟩
        have hparts := transferCut_pos_parts _ _ (Nat.pos_iff_ne_zero.mp hc)
        exact absurd ⟨hparts.1, hparts.2, Nat.pos_iff_ne_zero.mp hc, hs, hb⟩ hp
  · by_cases hp : offer.amount.value ≠ 0 ∧ getTransferFee offer.tokenID ≠ 0 ∧
        transferCut offer.amount.value (getTransferFee offer.tokenID) ≠ 0 ∧
        (if isSellOffer offer then offer.owner else submitter) ≠ getIssuer offer.tokenID ∧
        (if isSellOffer offer then submitter else offer.owner) ≠ getIssuer offer.tokenID
    · rw [if_pos hp]
      intro _
      refine ⟨rfl, ?_⟩
      rw [if_pos hp, if_pos hp.1]
    · rw [if_neg hp]
      intro h
      exact absurd rfl h
  · by_cases hp : offer.amount.value ≠ 0 ∧ getTransferFee offer.tokenID ≠ 0 ∧
        transferCut offer.amount.value (getTransferFee offer.tokenID) ≠ 0 ∧
        (if isSellOffer offer then offer.owner else submitter) ≠ getIssuer offer.tokenID ∧
        (if isSellOffer offer then submitter else offer.owner) ≠ getIssuer offer.tokenID
    · rw [if_pos hp]
      intro h
      exact absurd h (by simp)
    · rw [if_neg hp]
      intro _
      by_cases hz : offer.amount.value ≠ 0
      · rw [if_pos hz, if_neg hp, if_pos hz]
      · rw [if_neg hz, if_neg hz]
  · by_cases hp : postBrokerAmount bo bf ≠ 0 ∧ getTransferFee so.tokenID ≠ 0 ∧
        so.owner ≠ getIssuer so.tokenID ∧ bo.owner ≠ getIssuer so.tokenID
    · rw [if_pos hp]
      constructor
      · intro _
        exact hp
      · intro _
        simp
    · rw [if_neg hp]
      constructor
      · intro h
        exact absurd rfl h
      · intro hc
        exact absurd hc hp
  · by_cases hp : postBrokerAmount bo bf ≠ 0 ∧ getTransferFee so.tokenID ≠ 0 ∧
        so.owner ≠ getIssuer so.tokenID ∧ bo.owner ≠ getIssuer so.tokenID
    · rw [if_pos hp]
      intro _
      refine ⟨rfl, ?_⟩
      rw [if_pos hp]
    · rw [if_neg hp]
      intro h
      exact absurd rfl h
  · by_cases hp : postBrokerAmount bo bf ≠ 0 ∧ getTransferFee so.tokenID ≠ 0 ∧
        so.owner ≠ getIssuer so.tokenID ∧ bo.owner ≠ getIssuer so.tokenID
    · rw [if_pos hp]
      intro h
      exact absurd h (by simp)
    · rw [if_neg hp]
      intro _
      rw [if_neg hp]

/-- Witness for C4's amended theorem at the concrete brokered input of
the counterexample: fee 1 on a buy amount of 1 yields a zero cut yet an
issuer payment instruction. -/
theorem C4_amended_issuer_cut_witness :
    (brokeredApply 4 ⟨2, createTokenID 0 1 1 0 0, ⟨5, 1⟩, 0, none⟩
      ⟨3, createTokenID 0 1 1 0 0, ⟨5, 1⟩, 1, none⟩ none
      ⟨[⟨maxPageKey, none, none, [⟨createTokenID 0 1 1 0 0, none⟩]⟩], 1⟩
      ⟨[], 0⟩).issuerPay =
      some ⟨2, getIssuer (createTokenID 0 1 1 0 0),
        transferCut 1 (getTransferFee (createTokenID 0 1 1 0 0))⟩ := by
  have h := C4_amended_issuer_cut 4 ⟨2, createTokenID 0 1 1 0 0, ⟨5, 1⟩, 0, none⟩
    ⟨2, createTokenID 0 1 1 0 0, ⟨5, 1⟩, 0, none⟩
    ⟨3, createTokenID 0 1 1 0 0, ⟨5, 1⟩, 1, none⟩ none
    ⟨[], 0⟩ ⟨[], 0⟩
    ⟨[⟨maxPageKey, none, none, [⟨createTokenID 0 1 1 0 0, none⟩]⟩], 1⟩ ⟨[], 0⟩
    (acceptOffer 4 ⟨2, createTokenID 0 1 1 0 0, ⟨5, 1⟩, 0, none⟩ ⟨[], 0⟩ ⟨[], 0⟩)
    (brokeredApply 4 ⟨2, createTokenID 0 1 1 0 0, ⟨5, 1⟩, 0, none⟩
      ⟨3, createTokenID 0 1 1 0 0, ⟨5, 1⟩, 1, none⟩ none
      ⟨[⟨maxPageKey, none, none, [⟨createTokenID 0 1 1 0 0, none⟩]⟩], 1⟩ ⟨[], 0⟩)
    1 rfl rfl rfl
  exact (h.2.2.2.2.1 (by decide)).1

/-- C3: in a brokered accept the payments go broker fee first, then the
issuer cut on the remainder, then the rest to the seller.  For transfer
fee 50000, sell offer 900, buy offer 1000 and broker fee 100: the buyer
pays 1000 in total, the broker (submitter) gets 100, the issuer 450, the
seller 450, and the token moves to the buyer's directory. -/
theorem C3_brokered_scenario :
    (let tid := createTokenID 8 50000 1 7 0
     let r := brokeredApply 4 ⟨2, tid, ⟨5, 1000⟩, 0, none⟩ ⟨3, tid, ⟨5, 900⟩, 1, none⟩
       (some ⟨5, 100⟩) ⟨[⟨maxPageKey, none, none, [⟨tid, none⟩]⟩], 1⟩ ⟨[], 0⟩
     getTransferFee tid = 50000 ∧
     r.result = TER.tesSUCCESS ∧
     r.payments = [⟨2, 4, 100⟩, ⟨2, 1, 450⟩, ⟨2, 3, 450⟩] ∧
     balanceDelta r.payments 2 = -1000 ∧
     balanceDelta r.payments 4 = 100 ∧
     balanceDelta r.payments 1 = 450 ∧
     balanceDelta r.payments 3 = 450 ∧
     (findToken r.buyerDir.pages tid).isSome = true ∧
     findToken r.sellerDir.pages tid = none) := by
  decide

/-- C7: the claimed invariant preservation fails, and the code, not the
claim, is at fault.  From an invariant-satisfying one-page directory
whose page key is below the maximal page key (such directories arise
when the maximal page is emptied and erased while lower pages remain),
inserting a token whose masked identifier lies above that page's key
makes `getPageForToken` create the new maximal page without linking it
to its predecessor: `insertToken` returns success, yet the chain is no
longer a valid doubly-linked list. -/
theorem C7_insert_breaks_chain_code_bug :
    (let d : Dir := ⟨[⟨5, none, none, [⟨3 * 2 ^ 96, none⟩]⟩], 1⟩
     let r := insertToken d ⟨7 * 2 ^ 96, none⟩
     dirInvariantB d = true ∧
     r.1 = TER.tesSUCCESS ∧
     r.2.pages.length = 2 ∧
     r.2.ownerCount = 2 ∧
     linksOkB r.2.pages = false) := by
  decide

/-- C1 counterexample: splitting a full page does not key the new lower
page by `page_prefix(tokens[0])`.  On a full page of 32 tokens with
masked identifiers 1..32 the split lands at index 16; the new page takes
entries `tokens[0..16)` but its key is the masked identifier of
`tokens[16]` (17), not of `tokens[0]` (1). -/
theorem C1_split_new_page_key_counterexample :
    (let toks : List TokenEntry := (List.range 32).map (fun j => ⟨(j + 1) * 2 ^ 96, none⟩)
     let d : Dir := ⟨[⟨100, none, none, toks⟩], 1⟩
     let r := insertToken d ⟨50 * 2 ^ 96, none⟩
     dirInvariantB d = true ∧
     splitIndex toks = 16 ∧
     r.1 = TER.tesSUCCESS ∧
     (∀ p ∈ r.2.pages, p.tokens = toks.take 16 →
        p.key = pagePfx ((toks.getD 16 default).id) ∧
        p.key ≠ pagePfx ((toks.getD 0 default).id)) ∧
     (∃ p ∈ r.2.pages, p.tokens = toks.take 16)) := by
  decide

/-- C4 counterexample: the brokered settlement path omits the
`cut != zero` guard of the direct path.  With a buy offer of 1 and a
transfer fee of 1 the issuer cut rounds down to zero, both parties
differ from the issuer, and the code still emits a (zero-value) issuer
payment — violating the claim that an issuer payment occurs exactly when
the cut is strictly positive. -/
theorem C4_zero_cut_counterexample :
    (let tid := createTokenID 0 1 1 0 0
     let r := brokeredApply 4 ⟨2, tid, ⟨5, 1⟩, 0, none⟩ ⟨3, tid, ⟨5, 1⟩, 1, none⟩ none
       ⟨[⟨maxPageKey, none, none, [⟨tid, none⟩]⟩], 1⟩ ⟨[], 0⟩
     r.issuerPay = some ⟨2, 1, 0⟩ ∧
     transferCut 1 (getTransferFee tid) = 0 ∧
     ¬ (r.issuerPay.isSome = true ↔
         0 < transferCut 1 (getTransferFee tid) ∧
           3 ≠ getIssuer tid ∧ 2 ≠ getIssuer tid)) := by
  decide

/-! ### Helper lemmas for token removal and page merging (C9) -/

theorem getLast_split {α : Type} (l : List α) (a : α) (h : l.getLast? = some a) :
    ∃ B, l = B ++ [a] := by
  induction l with
  | nil => simp at h
  | cons x t ih =>
      cases t with
      | nil =>
          simp only [List.getLast?_singleton, Option.some.injEq] at h
          exact ⟨[], by rw [h]; rfl⟩
      | cons y t' =>
          rw [List.getLast?_cons_cons] at h
          obtain ⟨B, hB⟩ := ih h
          exact ⟨x :: B, by rw [List.cons_append, ← hB]⟩

theorem lookupPage_key (ps : List Page) (k : Nat) (q : Page)
    (h : lookupPage ps k = some q) : q.key = k := by
  have h' : ps.find? (fun p => p.key == k) = some q := h
  have := List.find?_some h'
  simpa using this

theorem lookupPage_erasePage_self (ps : List Page) (k : Nat) :
    lookupPage (erasePage ps k) k = none := by
  induction ps with
  | nil => rfl
  | cons a ps ih =>
      by_cases ha : a.key = k
      · show lookupPage (List.filter (fun p => p.key != k) (a :: ps)) k = none
        rw [List.filter_cons_of_neg (by simp [ha])]
        exact ih
      · show lookupPage (List.filter (fun p => p.key != k) (a :: ps)) k = none
        rw [List.filter_cons_of_pos (by simpa using ha), lookupPage_cons,
          if_neg (by simpa using ha)]
        exact ih

theorem lookupPage_erasePage_ne (ps : List Page) (k kk : Nat) (h : k ≠ kk) :
    lookupPage (erasePage ps kk) k = lookupPage ps k := by
  induction ps with
  | nil => rfl
  | cons a ps ih =>
      by_cases hakk : a.key = kk
      · have hak : a.key ≠ k := by omega
        show lookupPage (List.filter (fun p => p.key != kk) (a :: ps)) k = _
        rw [List.filter_cons_of_neg (by simp [hakk]), lookupPage_cons,
          if_neg (by simpa using hak)]
        exact ih
      · show lookupPage (List.filter (fun p => p.key != kk) (a :: ps)) k = _
        rw [List.filter_cons_of_pos (by simpa using hakk), lookupPage_cons,
          lookupPage_cons]
        by_cases hak : a.key = k
        · rw [if_pos (by simpa using hak), if_pos (by simpa using hak)]
        · rw [if_neg (by simpa using hak), if_neg (by simpa using hak)]
          exact ih

theorem mergeTokenLists_length (l1 l2 : List TokenEntry) :
    (mergeTokenLists l1 l2).length = l1.length + l2.length := by
  induction l2 generalizing l1 with
  | nil => cases l1 <;> simp [mergeTokenLists]
  | cons b t2 ih2 =>
      induction l1 with
      | nil => simp [mergeTokenLists]
      | cons a t1 ih1 =>
          rw [show mergeTokenLists (a :: t1) (b :: t2) =
            if pagePfx b.id < pagePfx a.id then b :: mergeTokenLists (a :: t1) t2
            else a :: mergeTokenLists t1 (b :: t2) from by rw [mergeTokenLists]]
          by_cases hc : pagePfx b.id < pagePfx a.id
          · rw [if_pos hc]
            have h2 := ih2 (a :: t1)
            simp only [List.length_cons] at *
            omega
          · rw [if_neg hc]
            simp only [List.length_cons] at *
            omega

theorem lookup_getLast (l1 B : List Page) (pv : Page)
    (hnd : (pageKeys (l1 ++ B)).Nodup) (hl : l1.getLast? = some pv) :
    lookupPage (l1 ++ B) pv.key = some pv := by
  obtain ⟨A, hA⟩ := getLast_split l1 pv hl
  subst hA
  rw [List.append_assoc] at hnd ⊢
  exact lookupPage_self_of_nodup A B pv hnd

theorem linksChain_tail (p : Page) (l : List Page) (h : linksChainB (p :: l) = true) :
    linksChainB l = true := by
  cases l with
  | nil => rfl
  | cons q rest =>
      rw [show linksChainB (p :: q :: rest) =
        (p.next == some q.key && q.prev == some p.key && linksChainB (q :: rest))
        from rfl] at h
      exact ((Bool.and_eq_true _ _).mp h).2

theorem linksChain_suffix (A B : List Page) (h : linksChainB (A ++ B) = true) :
    linksChainB B = true := by
  induction A with
  | nil => simpa using h
  | cons p A ih => exact ih (linksChain_tail p _ (by simpa using h))

theorem linksChain_last_next (l1 : List Page) (curr : Page) (l2 : List Page)
    (h : linksChainB (l1 ++ curr :: l2) = true) :
    ∀ pv, l1.getLast? = some pv → pv.next = some curr.key := by
  induction l1 with
  | nil => simp
  | cons p l1' ih =>
      intro pv hpv
      cases l1' with
      | nil =>
          simp only [List.getLast?_singleton, Option.some.injEq] at hpv
          subst hpv
          simp only [List.cons_append, List.nil_append] at h
          rw [show linksChainB (p :: curr :: l2) =
            (p.next == some curr.key && curr.prev == some p.key &&
              linksChainB (curr :: l2)) from rfl] at h
          simp only [Bool.and_eq_true, beq_iff_eq] at h
          exact h.1.1
      | cons q l1'' =>
          rw [List.getLast?_cons_cons] at hpv
          exact ih (linksChain_tail p _ (by simpa using h)) pv hpv

theorem linksChain_next_prev (curr nx : Page) (l2 : List Page)
    (h : linksChainB (curr :: nx :: l2) = true) : nx.prev = some curr.key := by
  rw [show linksChainB (curr :: nx :: l2) =
    (curr.next == some nx.key && nx.prev == some curr.key && linksChainB (nx :: l2))
    from rfl] at h
  simp only [Bool.and_eq_true, beq_iff_eq] at h
  exact h.1.2

theorem prev_loadable (d : Dir) (p : Page) (ppm : Nat)
    (hinv : dirInvariantB d = true) (hmem : p ∈ d.pages) (hppm : p.prev = some ppm) :
    ppm < p.key ∧ ∃ p0, lookupPage d.pages ppm = some p0 := by
  obtain ⟨hks, hlk, _, _, _, _⟩ := dirInvariant_parts d hinv
  refine ⟨prev_lt_key d p ppm hks hlk hmem hppm, ?_⟩
  obtain ⟨A, B, hAB⟩ := List.append_of_mem hmem
  have hlk' := hlk
  rw [hAB] at hlk'
  have hdec := linksOk_decomp A p B hlk'
  rw [hppm] at hdec
  cases hl : A.getLast? with
  | none =>
      rw [hl] at hdec
      simp at hdec
  | some pv =>
      rw [hl] at hdec
      have hppv : ppm = pv.key := by
        have h1 := hdec.1
        simp only [Option.map_some'] at h1
        exact Option.some.inj h1
      have hnd := keysSorted_nodup _ hks
      rw [hAB] at hnd ⊢
      rw [hppv]
      exact ⟨pv, lookup_getLast A (p :: B) pv hnd hl⟩

/-- The neighbor structure of a page at a known position in an
invariant-satisfying directory: key uniqueness, its own lookup, the
identity of its linked neighbors, and their order, links and lookups. -/
theorem split_neighbor_facts (d : Dir) (l1 l2 : List Page) (curr : Page)
    (hinv : dirInvariantB d = true) (hsplit : d.pages = l1 ++ curr :: l2) :
    (pageKeys d.pages).Nodup ∧
    lookupPage d.pages curr.key = some curr ∧
    curr.prev = (l1.getLast?).map Page.key ∧
    curr.next = (l2.head?).map Page.key ∧
    (∀ pv, l1.getLast? = some pv → pv.next = some curr.key ∧ pv.key < curr.key ∧
      lookupPage d.pages pv.key = some pv) ∧
    (∀ nx, l2.head? = some nx → nx.prev = some curr.key ∧ curr.key < nx.key ∧
      lookupPage d.pages nx.key = some nx) := by
  obtain ⟨hks, hlk, _, _, _, _⟩ := dirInvariant_parts d hinv
  have hnd := keysSorted_nodup _ hks
  have hpair := keysSorted_pairwise _ hks
  rw [hsplit] at hnd hpair hlk ⊢
  have hdec := linksOk_decomp l1 curr l2 hlk
  have hch := linksOk_chain _ hlk
  refine ⟨hnd, lookupPage_self_of_nodup l1 l2 curr hnd, hdec.1, hdec.2, ?_, ?_⟩
  · intro pv hpv
    refine ⟨linksChain_last_next l1 curr l2 hch pv hpv, ?_, ?_⟩
    · have hm : pv ∈ l1 := mem_of_getLast?_eq _ _ hpv
      exact (List.pairwise_append.mp hpair).2.2 pv hm curr (by simp)
    · exact lookup_getLast l1 (curr :: l2) pv hnd hpv
  · intro nx hnx
    have hex : ∃ l2t, l2 = nx :: l2t := by
      cases l2 with
      | nil => simp at hnx
      | cons a t =>
          simp only [List.head?_cons, Option.some.injEq] at hnx
          exact ⟨t, by rw [hnx]⟩
    obtain ⟨l2t, rfl⟩ := hex
    refine ⟨linksChain_next_prev curr nx l2t
      (linksChain_suffix l1 _ hch), ?_, ?_⟩
    · exact (List.pairwise_cons.mp (List.pairwise_append.mp hpair).2.1).1 nx (by simp)
    · have heq : l1 ++ curr :: nx :: l2t = (l1 ++ [curr]) ++ nx :: l2t := by simp
      rw [heq]
      refine lookupPage_self_of_nodup (l1 ++ [curr]) l2t nx ?_
      rw [← heq]
      exact hnd

/-- The behavior of `mergePages` on a valid call: two stored pages in
order, mutually linked, with a loadable predecessor link.  The merge
succeeds exactly when the combined token count fits on one page; on
success the lower-keyed page is erased, the higher-keyed page receives
the merged array and the lower page's backward link, the predecessor is
pointed forward at the surviving page, and all other pages are
untouched.  The owner count is never changed by `mergePages` itself. -/
theorem mergePages_valid (d : Dir) (p1 p2 : Page)
    (hl1 : lookupPage d.pages p1.key = some p1)
    (hl2 : lookupPage d.pages p2.key = some p2)
    (hord : p1.key < p2.key)
    (hn : p1.next = some p2.key)
    (hp : p2.prev = some p1.key)
    (hprev : ∀ ppm, p1.prev = some ppm →
      ppm ≠ p1.key ∧ ppm ≠ p2.key ∧ ∃ p0, lookupPage d.pages ppm = some p0) :
    ∃ d2, mergePages d p1.key p2.key =
        some (decide (p1.tokens.length + p2.tokens.length ≤ dirMaxTokensPerPage), d2) ∧
      d2.ownerCount = d.ownerCount ∧
      (¬ p1.tokens.length + p2.tokens.length ≤ dirMaxTokensPerPage → d2 = d) ∧
      (p1.tokens.length + p2.tokens.length ≤ dirMaxTokensPerPage →
        lookupPage d2.pages p1.key = none ∧
        lookupPage d2.pages p2.key =
          some ⟨p2.key, p1.prev, p2.next, mergeTokenLists p1.tokens p2.tokens⟩ ∧
        (∀ ppm p0, p1.prev = some ppm → lookupPage d.pages ppm = some p0 →
          lookupPage d2.pages ppm = some ⟨p0.key, p0.prev, some p2.key, p0.tokens⟩)) ∧
      (∀ k, k ≠ p1.key → k ≠ p2.key → p1.prev ≠ some k →
        lookupPage d2.pages k = lookupPage d.pages k) := by
  have hne21 : p2.key ≠ p1.key := Ne.symm (Nat.ne_of_lt hord)
  have hmp : mergePages d p1.key p2.key =
      (if p1.tokens.length + p2.tokens.length > dirMaxTokensPerPage then some (false, d)
       else mergePagesMerged d p1 p2) := by
    unfold mergePages
    rw [hl1, hl2]
    show (if p1.key ≥ p2.key then none
      else if p1.next ≠ some p2.key then none
      else if p2.prev ≠ some p1.key then none
      else if p1.tokens.length + p2.tokens.length > dirMaxTokensPerPage then some (false, d)
      else mergePagesMerged d p1 p2) = _
    rw [if_neg (by omega), if_neg (by simp [hn]), if_neg (by simp [hp])]
  by_cases hsz : p1.tokens.length + p2.tokens.length ≤ dirMaxTokensPerPage
  · rw [if_neg (by omega)] at hmp
    cases hpp : p1.prev with
    | none =>
        refine ⟨⟨erasePage (updatePage d.pages
          ⟨p2.key, none, p2.next, mergeTokenLists p1.tokens p2.tokens⟩) p1.key,
          d.ownerCount⟩, ?_, rfl, fun h => absurd hsz h, fun _ => ⟨?_, ?_, ?_⟩, ?_⟩
        · rw [hmp, decide_eq_true hsz]
          unfold mergePagesMerged
          rw [hpp]
        · exact lookupPage_erasePage_self _ _
        · rw [lookupPage_erasePage_ne _ _ _ hne21]
          exact lookupPage_updatePage_self d.pages
            ⟨p2.key, none, p2.next, mergeTokenLists p1.tokens p2.tokens⟩ p2 hl2
        · intro ppm p0 hppm
          simp at hppm
        · intro k hk1 hk2 _
          rw [lookupPage_erasePage_ne _ _ _ hk1, lookupPage_updatePage_ne _
            ⟨p2.key, none, p2.next, mergeTokenLists p1.tokens p2.tokens⟩ _ hk2]
    | some ppm =>
        obtain ⟨hne01, hne02, p0, hp0⟩ := hprev ppm hpp
        have hk0 : p0.key = ppm := lookupPage_key _ _ _ hp0
        refine ⟨⟨erasePage (updatePage
          (updatePage d.pages ⟨p0.key, p0.prev, some p2.key, p0.tokens⟩)
          ⟨p2.key, some ppm, p2.next, mergeTokenLists p1.tokens p2.tokens⟩) p1.key,
          d.ownerCount⟩, ?_, rfl, fun h => absurd hsz h, fun _ => ⟨?_, ?_, ?_⟩, ?_⟩
        · rw [hmp, decide_eq_true hsz]
          unfold mergePagesMerged
          rw [hpp]
          dsimp only
          rw [hp0]
        · exact lookupPage_erasePage_self _ _
        · rw [lookupPage_erasePage_ne _ _ _ hne21]
          refine lookupPage_updatePage_self _
            ⟨p2.key, some ppm, p2.next, mergeTokenLists p1.tokens p2.tokens⟩ p2 ?_
          show lookupPage (updatePage d.pages ⟨p0.key, p0.prev, some p2.key, p0.tokens⟩)
            p2.key = some p2
          rw [lookupPage_updatePage_ne _ ⟨p0.key, p0.prev, some p2.key, p0.tokens⟩ _
            (by simpa [hk0] using Ne.symm hne02)]
          exact hl2
        · intro ppm' p0' hppm' hp0'
          have hpe : ppm' = ppm := (Option.some.inj hppm').symm
          rw [hpe] at hp0' ⊢
          rw [hp0] at hp0'
          have hp0e : p0' = p0 := (Option.some.inj hp0').symm
          rw [hp0e]
          rw [lookupPage_erasePage_ne _ _ _ hne01]
          rw [lookupPage_updatePage_ne _
            ⟨p2.key, some ppm, p2.next, mergeTokenLists p1.tokens p2.tokens⟩ _ hne02]
          rw [← hk0]
          refine lookupPage_updatePage_self d.pages
            ⟨p0.key, p0.prev, some p2.key, p0.tokens⟩ p0 ?_
          show lookupPage d.pages p0.key = some p0
          rw [hk0]
          exact hp0
        · intro k hk1 hk2 hk3
          have hkppm : k ≠ ppm := fun he => hk3 (by rw [he])
          rw [lookupPage_erasePage_ne _ _ _ hk1, lookupPage_updatePage_ne _
            ⟨p2.key, some ppm, p2.next, mergeTokenLists p1.tokens p2.tokens⟩ _ hk2]
          rw [lookupPage_updatePage_ne _ ⟨p0.key, p0.prev, some p2.key, p0.tokens⟩ _
            (by simpa [hk0] using hkppm)]
  · rw [if_pos (by omega)] at hmp
    exact ⟨d, by rw [hmp, decide_eq_false hsz], rfl, fun _ => rfl,
      fun h => absurd h hsz, fun k _ _ _ => rfl⟩

/-- The behavior of `removeToken` when the page keeps at least one
token: the page is rewritten, a merge with the previous page and then
with the next page is attempted, each succeeding exactly when the
combined token count fits on one page (`b1`, `b2`), the lower-keyed page
of a successful merge is erased, and the owner count drops by one per
successful merge. -/
theorem removeToken_nonempty_spec (d : Dir) (l1 l2 : List Page) (curr : Page) (T : Nat)
    (arr : List TokenEntry) (b1 b2 : Bool)
    (hinv : dirInvariantB d = true)
    (hsplit : d.pages = l1 ++ curr :: l2)
    (hmem : curr.tokens.any (fun t => t.id == T) = true)
    (harr : arr = eraseFirstToken T curr.tokens)
    (hb1 : b1 = (l1.getLast?).elim false
      (fun pv => decide (pv.tokens.length + arr.length ≤ dirMaxTokensPerPage)))
    (hb2 : b2 = (l2.head?).elim false
      (fun nx => decide ((if b1 then (l1.getLast?).elim 0 (fun pv => pv.tokens.length) else 0)
        + arr.length + nx.tokens.length ≤ dirMaxTokensPerPage)))
    (hne : arr ≠ []) :
    ∃ d2, removeToken d T = some (TER.tesSUCCESS, d2) ∧
      d2.ownerCount = d.ownerCount - ((if b1 then 1 else 0) + (if b2 then 1 else 0)) ∧
      (b1 = true → ∀ pv, l1.getLast? = some pv → lookupPage d2.pages pv.key = none) ∧
      (b1 = false → ∀ pv, l1.getLast? = some pv →
        ∃ q, lookupPage d2.pages pv.key = some q ∧ q.tokens = pv.tokens) ∧
      (b2 = true → lookupPage d2.pages curr.key = none) ∧
      (b2 = false → ∃ q, lookupPage d2.pages curr.key = some q ∧
        q.tokens = if b1 then (l1.getLast?).elim arr (fun pv => mergeTokenLists pv.tokens arr)
          else arr) := by
  obtain ⟨hnd, hlcurr, hprevEq, hnextEq, hPV, hNX⟩ :=
    split_neighbor_facts d l1 l2 curr hinv hsplit
  obtain ⟨hks, hlkOk, _, _, hbd, _⟩ := dirInvariant_parts d hinv
  obtain ⟨t, htmem, htid⟩ := List.any_eq_true.mp hmem
  have htid' : t.id = T := by simpa using htid
  have hloc : locatePage d.pages T = some curr := by
    have hks' := hks
    have hbd' := hbd
    rw [hsplit] at hks' hbd'
    rw [← htid', hsplit]
    exact locatePage_of_mem l1 l2 curr t hks' hbd' htmem
  have hpl : loadLinked d.pages curr.prev = some l1.getLast? := by
    rw [hprevEq]
    cases hlast : l1.getLast? with
    | none => rfl
    | some pv =>
        show (lookupPage d.pages pv.key).map some = some (some pv)
        rw [(hPV pv hlast).2.2]
        rfl
  have hnl : loadLinked d.pages curr.next = some l2.head? := by
    rw [hnextEq]
    cases hhead : l2.head? with
    | none => rfl
    | some nx =>
        show (lookupPage d.pages nx.key).map some = some (some nx)
        rw [(hNX nx hhead).2.2]
        rfl
  have hempt : arr.isEmpty = false := by
    rcases arr with _ | ⟨a, ta⟩
    · exact absurd rfl hne
    · rfl
  cases hlast : l1.getLast? with
  | none =>
      rw [hlast] at hb1 hb2 hpl
      simp only [Option.elim] at hb1
      rw [hb1] at hb2
      cases hhead : l2.head? with
      | none =>
          rw [hhead] at hb2 hnl
          simp only [Option.elim] at hb2
          refine ⟨⟨updatePage d.pages ⟨curr.key, curr.prev, curr.next, arr⟩, d.ownerCount⟩,
            ?_, ?_, ?_, ?_, ?_, ?_⟩
          · unfold removeToken
            rw [hloc]
            simp [hmem, hpl, hnl, hempt, ← harr]
          · rw [hb1, hb2]
            simp
          · intro hbt
            rw [hb1] at hbt
            exact absurd hbt (by simp)
          · intro _ pv hpv
            exact absurd hpv (by simp)
          · intro hbt
            rw [hb2] at hbt
            exact absurd hbt (by simp)
          · intro _
            refine ⟨⟨curr.key, curr.prev, curr.next, arr⟩, ?_, ?_⟩
            · exact lookupPage_updatePage_self d.pages ⟨curr.key, curr.prev, curr.next, arr⟩
                curr hlcurr
            · rw [hb1]
              simp
      | some nx =>
          rw [hhead] at hb2 hnl
          simp at hb2
          obtain ⟨hnxprev, hnxgt, hnxlook⟩ := hNX nx hhead
          have hcn : curr.next = some nx.key := by rw [hnextEq, hhead]; rfl
          have hcp : curr.prev = none := by rw [hprevEq, hlast]; rfl
          have hl1' : lookupPage (updatePage d.pages ⟨curr.key, curr.prev, curr.next, arr⟩)
              curr.key = some ⟨curr.key, curr.prev, curr.next, arr⟩ :=
            lookupPage_updatePage_self d.pages _ curr hlcurr
          have hl2nx : lookupPage (updatePage d.pages ⟨curr.key, curr.prev, curr.next, arr⟩)
              nx.key = some nx := by
            rw [lookupPage_updatePage_ne _ ⟨curr.key, curr.prev, curr.next, arr⟩ _
              (show nx.key ≠ curr.key from Ne.symm (Nat.ne_of_lt hnxgt))]
            exact hnxlook
          obtain ⟨dm2, hm2eq, hm2oc, hm2fail, hm2succ, hm2frame⟩ :=
            mergePages_valid ⟨updatePage d.pages ⟨curr.key, curr.prev, curr.next, arr⟩,
              d.ownerCount⟩ ⟨curr.key, curr.prev, curr.next, arr⟩ nx hl1' hl2nx hnxgt
              (show (⟨curr.key, curr.prev, curr.next, arr⟩ : Page).next = some nx.key from hcn)
              (show nx.prev = some (⟨curr.key, curr.prev, curr.next, arr⟩ : Page).key
                from hnxprev)
              (by
                intro ppm hppm
                have hppm' : curr.prev = some ppm := hppm
                rw [hcp] at hppm'
                exact absurd hppm' (by simp))
          dsimp only at hm2eq hm2oc hm2fail hm2succ hm2frame
          by_cases hsz2 : arr.length + nx.tokens.length ≤ dirMaxTokensPerPage
          · have hc2 : b2 = true := by rw [hb2]; exact decide_eq_true hsz2
            rw [decide_eq_true hsz2] at hm2eq
            refine ⟨⟨dm2.pages, dm2.ownerCount - 1⟩, ?_, ?_, ?_, ?_, ?_, ?_⟩
            · unfold removeToken
              rw [hloc]
              simp [hmem, hpl, hnl, hempt, ← harr, hm2eq]
            · show dm2.ownerCount - 1 = _
              rw [hm2oc, hb1, hc2]
              simp
            · intro hbt
              rw [hb1] at hbt
              exact absurd hbt (by simp)
            · intro _ pv hpv
              exact absurd hpv (by simp)
            · intro _
              exact (hm2succ hsz2).1
            · intro hbf
              rw [hc2] at hbf
              exact absurd hbf (by simp)
          · have hc2 : b2 = false := by rw [hb2]; exact decide_eq_false hsz2
            rw [decide_eq_false hsz2] at hm2eq
            have hdm2 := hm2fail hsz2
            refine ⟨dm2, ?_, ?_, ?_, ?_, ?_, ?_⟩
            · unfold removeToken
              rw [hloc]
              simp [hmem, hpl, hnl, hempt, ← harr, hm2eq]
            · rw [hdm2, hb1, hc2]
              simp
            · intro hbt
              rw [hb1] at hbt
              exact absurd hbt (by simp)
            · intro _ pv hpv
              exact absurd hpv (by simp)
            · intro hbt
              rw [hc2] at hbt
              exact absurd hbt (by simp)
            · intro _
              rw [hdm2]
              refine ⟨⟨curr.key, curr.prev, curr.next, arr⟩, hl1', ?_⟩
              rw [hb1]
              simp
  | some pv =>
      rw [hlast] at hb1 hb2 hpl
      simp only [Option.elim] at hb1 hb2
      obtain ⟨hpvnext, hpvlt, hpvlook⟩ := hPV pv hlast
      have hcp : curr.prev = some pv.key := by rw [hprevEq, hlast]; rfl
      have hpvmem : pv ∈ d.pages := by
        rw [hsplit]
        exact List.mem_append.mpr (Or.inl (mem_of_getLast?_eq _ _ hlast))
      have hl1' : lookupPage (updatePage d.pages ⟨curr.key, curr.prev, curr.next, arr⟩)
          pv.key = some pv := by
        rw [lookupPage_updatePage_ne _ ⟨curr.key, curr.prev, curr.next, arr⟩ _
          (Nat.ne_of_lt hpvlt)]
        exact hpvlook
      have hl2' : lookupPage (updatePage d.pages ⟨curr.key, curr.prev, curr.next, arr⟩)
          curr.key = some ⟨curr.key, curr.prev, curr.next, arr⟩ :=
        lookupPage_updatePage_self d.pages _ curr hlcurr
      have hprev1 : ∀ ppm, pv.prev = some ppm →
          ppm ≠ pv.key ∧ ppm ≠ (⟨curr.key, curr.prev, curr.next, arr⟩ : Page).key ∧
          ∃ p0, lookupPage (updatePage d.pages ⟨curr.key, curr.prev, curr.next, arr⟩) ppm
            = some p0 := by
        intro ppm hppm
        obtain ⟨hlt, p0, hp0⟩ := prev_loadable d pv ppm hinv hpvmem hppm
        refine ⟨by omega, show ppm ≠ curr.key by omega, p0, ?_⟩
        rw [lookupPage_updatePage_ne _ ⟨curr.key, curr.prev, curr.next, arr⟩ _
          (show ppm ≠ curr.key by omega)]
        exact hp0
      obtain ⟨dm1, hm1eq, hm1oc, hm1fail, hm1succ, hm1frame⟩ :=
        mergePages_valid ⟨updatePage d.pages ⟨curr.key, curr.prev, curr.next, arr⟩,
          d.ownerCount⟩ pv ⟨curr.key, curr.prev, curr.next, arr⟩ hl1' hl2' hpvlt hpvnext
          (show (⟨curr.key, curr.prev, curr.next, arr⟩ : Page).prev = some pv.key from hcp)
          hprev1
      dsimp only at hm1eq hm1oc hm1fail hm1succ hm1frame
      cases hhead : l2.head? with
      | none =>
          rw [hhead] at hb2 hnl
          simp only [Option.elim] at hb2
          by_cases hsz1 : pv.tokens.length + arr.length ≤ dirMaxTokensPerPage
          · have hc1 : b1 = true := by rw [hb1]; exact decide_eq_true hsz1
            rw [decide_eq_true hsz1] at hm1eq
            obtain ⟨hgone, hq1, hp0upd⟩ := hm1succ hsz1
            refine ⟨⟨dm1.pages, dm1.ownerCount - 1⟩, ?_, ?_, ?_, ?_, ?_, ?_⟩
            · unfold removeToken
              rw [hloc]
              simp [hmem, hpl, hnl, hempt, ← harr, hm1eq]
            · show dm1.ownerCount - 1 = _
              rw [hm1oc, hc1, hb2]
              simp
            · intro _ pv' hpv'
              have he : pv' = pv := (Option.some.inj hpv').symm
              show lookupPage dm1.pages pv'.key = none
              rw [he]
              exact hgone
            · intro hbf
              rw [hc1] at hbf
              exact absurd hbf (by simp)
            · intro hbt
              rw [hb2] at hbt
              exact absurd hbt (by simp)
            · intro _
              refine ⟨⟨curr.key, pv.prev, curr.next, mergeTokenLists pv.tokens arr⟩, ?_, ?_⟩
              · show lookupPage dm1.pages curr.key = _
                exact hq1
              · rw [hc1]
                simp [Option.elim]
          · have hc1 : b1 = false := by rw [hb1]; exact decide_eq_false hsz1
            rw [decide_eq_false hsz1] at hm1eq
            have hdm1 := hm1fail hsz1
            refine ⟨dm1, ?_, ?_, ?_, ?_, ?_, ?_⟩
            · unfold removeToken
              rw [hloc]
              simp [hmem, hpl, hnl, hempt, ← harr, hm1eq]
            · rw [hm1oc, hc1, hb2]
              simp
            · intro hbt
              rw [hc1] at hbt
              exact absurd hbt (by simp)
            · intro _ pv' hpv'
              have he : pv' = pv := (Option.some.inj hpv').symm
              rw [he, hdm1]
              exact ⟨pv, hl1', rfl⟩
            · intro hbt
              rw [hb2] at hbt
              exact absurd hbt (by simp)
            · intro _
              rw [hdm1]
              refine ⟨⟨curr.key, curr.prev, curr.next, arr⟩, hl2', ?_⟩
              rw [hc1]
              simp
      | some nx =>
          rw [hhead] at hb2 hnl
          simp only [Option.elim] at hb2
          obtain ⟨hnxprev, hnxgt, hnxlook⟩ := hNX nx hhead
          have hcn : curr.next = some nx.key := by rw [hnextEq, hhead]; rfl
          have hknx_pv : pv.key < nx.key := Nat.lt_trans hpvlt hnxgt
          have hl2nx : lookupPage (updatePage d.pages ⟨curr.key, curr.prev, curr.next, arr⟩)
              nx.key = some nx := by
            rw [lookupPage_updatePage_ne _ ⟨curr.key, curr.prev, curr.next, arr⟩ _
              (show nx.key ≠ curr.key from Ne.symm (Nat.ne_of_lt hnxgt))]
            exact hnxlook
          have hpvprev_nx : pv.prev ≠ some nx.key := by
            intro hcon
            obtain ⟨hlt, _⟩ := prev_loadable d pv nx.key hinv hpvmem hcon
            omega
          have hpvprev_pv : pv.prev ≠ some pv.key := by
            intro hcon
            obtain ⟨hlt, _⟩ := prev_loadable d pv pv.key hinv hpvmem hcon
            omega
          by_cases hsz1 : pv.tokens.length + arr.length ≤ dirMaxTokensPerPage
          · have hc1 : b1 = true := by rw [hb1]; exact decide_eq_true hsz1
            rw [decide_eq_true hsz1] at hm1eq
            obtain ⟨hgone, hq1, hp0upd⟩ := hm1succ hsz1
            have hnx2 : lookupPage dm1.pages nx.key = some nx := by
              rw [hm1frame nx.key (Ne.symm (Nat.ne_of_lt hknx_pv))
                (Ne.symm (Nat.ne_of_lt hnxgt)) hpvprev_nx]
              exact hl2nx
            have hMprev : ∀ ppm, (⟨curr.key, pv.prev, curr.next,
                mergeTokenLists pv.tokens arr⟩ : Page).prev = some ppm →
                ppm ≠ (⟨curr.key, pv.prev, curr.next,
                  mergeTokenLists pv.tokens arr⟩ : Page).key ∧ ppm ≠ nx.key ∧
                ∃ p0, lookupPage dm1.pages ppm = some p0 := by
              intro ppm hppm
              have hppm' : pv.prev = some ppm := hppm
              obtain ⟨hlt, p0, hp0⟩ := prev_loadable d pv ppm hinv hpvmem hppm'
              refine ⟨show ppm ≠ curr.key by omega, by omega, ?_⟩
              have hp0d1 : lookupPage (updatePage d.pages
                  ⟨curr.key, curr.prev, curr.next, arr⟩) ppm = some p0 := by
                rw [lookupPage_updatePage_ne _ ⟨curr.key, curr.prev, curr.next, arr⟩ _
                  (show ppm ≠ curr.key by omega)]
                exact hp0
              exact ⟨_, hp0upd ppm p0 hppm' hp0d1⟩
            obtain ⟨dm2, hm2eq, hm2oc, hm2fail, hm2succ, hm2frame⟩ :=
              mergePages_valid dm1 ⟨curr.key, pv.prev, curr.next,
                mergeTokenLists pv.tokens arr⟩ nx hq1 hnx2 hnxgt
                (show curr.next = some nx.key from hcn)
                (show nx.prev = some curr.key from hnxprev)
                hMprev
            dsimp only at hm2eq hm2oc hm2fail hm2succ hm2frame
            have hlen : (mergeTokenLists pv.tokens arr).length + nx.tokens.length =
                pv.tokens.length + arr.length + nx.tokens.length := by
              rw [mergeTokenLists_length]
            rw [hc1] at hb2
            simp only [if_true] at hb2
            by_cases hsz2 : pv.tokens.length + arr.length + nx.tokens.length ≤
                dirMaxTokensPerPage
            · have hc2 : b2 = true := by rw [hb2]; exact decide_eq_true hsz2
              rw [show decide ((mergeTokenLists pv.tokens arr).length + nx.tokens.length ≤
                dirMaxTokensPerPage) = true from by rw [hlen]; exact decide_eq_true hsz2]
                at hm2eq
              refine ⟨⟨dm2.pages, dm2.ownerCount - 2⟩, ?_, ?_, ?_, ?_, ?_, ?_⟩
              · unfold removeToken
                rw [hloc]
                simp [hmem, hpl, hnl, hempt, ← harr, hm1eq, hm2eq]
              · show dm2.ownerCount - 2 = _
                rw [hm2oc, hm1oc, hc1, hc2]
                simp
              · intro _ pv' hpv'
                have he : pv' = pv := (Option.some.inj hpv').symm
                show lookupPage dm2.pages pv'.key = none
                rw [he]
                rw [hm2frame pv.key (Nat.ne_of_lt hpvlt) (Nat.ne_of_lt hknx_pv) hpvprev_pv]
                exact hgone
              · intro hbf
                rw [hc1] at hbf
                exact absurd hbf (by simp)
              · intro _
                exact (hm2succ (by rw [hlen]; exact hsz2)).1
              · intro hbf
                rw [hc2] at hbf
                exact absurd hbf (by simp)
            · have hc2 : b2 = false := by rw [hb2]; exact decide_eq_false hsz2
              rw [show decide ((mergeTokenLists pv.tokens arr).length + nx.tokens.length ≤
                dirMaxTokensPerPage) = false from by rw [hlen]; exact decide_eq_false hsz2]
                at hm2eq
              have hdm2 : dm2 = dm1 := hm2fail (by rw [hlen]; exact hsz2)
              refine ⟨⟨dm1.pages, dm1.ownerCount - 1⟩, ?_, ?_, ?_, ?_, ?_, ?_⟩
              · unfold removeToken
                rw [hloc]
                simp [hmem, hpl, hnl, hempt, ← harr, hm1eq, hm2eq, hdm2]
              · show dm1.ownerCount - 1 = _
                rw [hm1oc, hc1, hc2]
                simp
              · intro _ pv' hpv'
                have he : pv' = pv := (Option.some.inj hpv').symm
                show lookupPage dm1.pages pv'.key = none
                rw [he]
                exact hgone
              · intro hbf
                rw [hc1] at hbf
                exact absurd hbf (by simp)
              · intro hbt
                rw [hc2] at hbt
                exact absurd hbt (by simp)
              · intro _
                refine ⟨⟨curr.key, pv.prev, curr.next, mergeTokenLists pv.tokens arr⟩, ?_, ?_⟩
                · show lookupPage dm1.pages curr.key = _
                  exact hq1
                · rw [hc1]
                  simp [Option.elim]
          · have hc1 : b1 = false := by rw [hb1]; exact decide_eq_false hsz1
            rw [decide_eq_false hsz1] at hm1eq
            have hdm1 := hm1fail hsz1
            obtain ⟨dm2, hm2eq, hm2oc, hm2fail, hm2succ, hm2frame⟩ :=
              mergePages_valid ⟨updatePage d.pages ⟨curr.key, curr.prev, curr.next, arr⟩,
                d.ownerCount⟩ ⟨curr.key, curr.prev, curr.next, arr⟩ nx hl2' hl2nx hnxgt
                (show (⟨curr.key, curr.prev, curr.next, arr⟩ : Page).next = some nx.key
                  from hcn)
                (show nx.prev = some (⟨curr.key, curr.prev, curr.next, arr⟩ : Page).key
                  from hnxprev)
                (by
                  intro ppm hppm
                  have hppm' : curr.prev = some ppm := hppm
                  rw [hcp] at hppm'
                  have he : ppm = pv.key := (Option.some.inj hppm').symm
                  subst he
                  exact ⟨show pv.key ≠ curr.key from Nat.ne_of_lt hpvlt,
                    Nat.ne_of_lt hknx_pv, pv, hl1'⟩)
            dsimp only at hm2eq hm2oc hm2fail hm2succ hm2frame
            rw [hc1] at hb2
            simp only [Bool.false_eq_true, if_false, Nat.zero_add] at hb2
            by_cases hsz2 : arr.length + nx.tokens.length ≤ dirMaxTokensPerPage
            · have hc2 : b2 = true := by rw [hb2]; exact decide_eq_true hsz2
              rw [decide_eq_true hsz2] at hm2eq
              obtain ⟨hgone2, hq2, hp0upd2⟩ := hm2succ hsz2
              refine ⟨⟨dm2.pages, dm2.ownerCount - 1⟩, ?_, ?_, ?_, ?_, ?_, ?_⟩
              · unfold removeToken
                rw [hloc]
                simp [hmem, hpl, hnl, hempt, ← harr, hm1eq, hdm1, hm2eq]
              · show dm2.ownerCount - 1 = _
                rw [hm2oc, hc1, hc2]
                simp
              · intro hbt
                rw [hc1] at hbt
                exact absurd hbt (by simp)
              · intro _ pv' hpv'
                have he : pv' = pv := (Option.some.inj hpv').symm
                rw [he]
                exact ⟨⟨pv.key, pv.prev, some nx.key, pv.tokens⟩,
                  hp0upd2 pv.key pv hcp hl1', rfl⟩
              · intro _
                exact hgone2
              · intro hbf
                rw [hc2] at hbf
                exact absurd hbf (by simp)
            · have hc2 : b2 = false := by rw [hb2]; exact decide_eq_false hsz2
              rw [decide_eq_false hsz2] at hm2eq
              have hdm2 := hm2fail hsz2
              refine ⟨⟨updatePage d.pages ⟨curr.key, curr.prev, curr.next, arr⟩,
                d.ownerCount⟩, ?_, ?_, ?_, ?_, ?_, ?_⟩
              · unfold removeToken
                rw [hloc]
                simp [hmem, hpl, hnl, hempt, ← harr, hm1eq, hdm1, hm2eq, hdm2]
              · rw [hc1, hc2]
                simp
              · intro hbt
                rw [hc1] at hbt
                exact absurd hbt (by simp)
              · intro _ pv' hpv'
                have he : pv' = pv := (Option.some.inj hpv').symm
                rw [he]
                exact ⟨pv, hl1', rfl⟩
              · intro hbt
                rw [hc2] at hbt
                exact absurd hbt (by simp)
              · intro _
                refine ⟨⟨curr.key, curr.prev, curr.next, arr⟩, hl2', ?_⟩
                rw [hc1]
                simp

/-- The behavior of `removeToken` when the page loses its last token:
the page is unlinked from both neighbors and erased, the owner count
drops by one, and a merge of the two now-adjacent neighbors is
attempted, succeeding exactly when their combined token count fits on
one page (`bm`) and then dropping the count once more, erasing the
lower-keyed neighbor. -/
theorem removeToken_empty_spec (d : Dir) (l1 l2 : List Page) (curr : Page) (T : Nat)
    (bm : Bool)
    (hinv : dirInvariantB d = true)
    (hsplit : d.pages = l1 ++ curr :: l2)
    (hmem : curr.tokens.any (fun t => t.id == T) = true)
    (hempty : eraseFirstToken T curr.tokens = [])
    (hbm : bm = (l1.getLast?).elim false (fun pv => (l2.head?).elim false
      (fun nx => decide (pv.tokens.length + nx.tokens.length ≤ dirMaxTokensPerPage)))) :
    ∃ d2, removeToken d T = some (TER.tesSUCCESS, d2) ∧
      d2.ownerCount = d.ownerCount - 1 - (if bm then 1 else 0) ∧
      lookupPage d2.pages curr.key = none ∧
      (bm = true → ∀ pv, l1.getLast? = some pv → lookupPage d2.pages pv.key = none) ∧
      (bm = true → ∀ pv nx, l1.getLast? = some pv → l2.head? = some nx →
        lookupPage d2.pages nx.key =
          some ⟨nx.key, pv.prev, nx.next, mergeTokenLists pv.tokens nx.tokens⟩) ∧
      (bm = false → ∀ pv, l1.getLast? = some pv →
        lookupPage d2.pages pv.key =
          some ⟨pv.key, pv.prev, (l2.head?).map Page.key, pv.tokens⟩) ∧
      (bm = false → ∀ nx, l2.head? = some nx →
        lookupPage d2.pages nx.key =
          some ⟨nx.key, (l1.getLast?).map Page.key, nx.next, nx.tokens⟩) := by
  obtain ⟨hnd, hlcurr, hprevEq, hnextEq, hPV, hNX⟩ :=
    split_neighbor_facts d l1 l2 curr hinv hsplit
  obtain ⟨hks, hlkOk, _, _, hbd, _⟩ := dirInvariant_parts d hinv
  obtain ⟨t, htmem, htid⟩ := List.any_eq_true.mp hmem
  have htid' : t.id = T := by simpa using htid
  have hloc : locatePage d.pages T = some curr := by
    have hks' := hks
    have hbd' := hbd
    rw [hsplit] at hks' hbd'
    rw [← htid', hsplit]
    exact locatePage_of_mem l1 l2 curr t hks' hbd' htmem
  have hpl : loadLinked d.pages curr.prev = some l1.getLast? := by
    rw [hprevEq]
    cases hlast : l1.getLast? with
    | none => rfl
    | some pv =>
        show (lookupPage d.pages pv.key).map some = some (some pv)
        rw [(hPV pv hlast).2.2]
        rfl
  have hnl : loadLinked d.pages curr.next = some l2.head? := by
    rw [hnextEq]
    cases hhead : l2.head? with
    | none => rfl
    | some nx =>
        show (lookupPage d.pages nx.key).map some = some (some nx)
        rw [(hNX nx hhead).2.2]
        rfl
  have hempt : (eraseFirstToken T curr.tokens).isEmpty = true := by
    rw [hempty]
    rfl
  cases hlast : l1.getLast? with
  | none =>
      rw [hlast] at hbm hpl
      simp only [Option.elim] at hbm
      cases hhead : l2.head? with
      | none =>
          rw [hhead] at hnl
          refine ⟨⟨erasePage d.pages curr.key, d.ownerCount - 1⟩, ?_, ?_, ?_, ?_, ?_, ?_, ?_⟩
          · unfold removeToken
            rw [hloc]
            simp [hmem, hpl, hnl, hempt]
          · rw [hbm]
            simp
          · exact lookupPage_erasePage_self _ _
          · intro hbt
            rw [hbm] at hbt
            exact absurd hbt (by simp)
          · intro _ pv nx hpv
            exact absurd hpv (by simp)
          · intro _ pv hpv
            exact absurd hpv (by simp)
          · intro _ nx hnx
            exact absurd hnx (by simp)
      | some nx =>
          rw [hhead] at hnl
          obtain ⟨hnxprev, hnxgt, hnxlook⟩ := hNX nx hhead
          refine ⟨⟨erasePage (updatePage d.pages ⟨nx.key, none, nx.next, nx.tokens⟩)
            curr.key, d.ownerCount - 1⟩, ?_, ?_, ?_, ?_, ?_, ?_, ?_⟩
          · unfold removeToken
            rw [hloc]
            simp [hmem, hpl, hnl, hempt]
          · rw [hbm]
            simp
          · exact lookupPage_erasePage_self _ _
          · intro hbt
            rw [hbm] at hbt
            exact absurd hbt (by simp)
          · intro _ pv nx' hpv
            exact absurd hpv (by simp)
          · intro _ pv hpv
            exact absurd hpv (by simp)
          · intro _ nx' hnx'
            have he : nx' = nx := (Option.some.inj hnx').symm
            subst he
            rw [lookupPage_erasePage_ne _ _ _ (Ne.symm (Nat.ne_of_lt hnxgt))]
            exact lookupPage_updatePage_self d.pages ⟨nx'.key, none, nx'.next, nx'.tokens⟩
              nx' hnxlook
  | some pv =>
      rw [hlast] at hbm hpl
      simp only [Option.elim] at hbm
      obtain ⟨hpvnext, hpvlt, hpvlook⟩ := hPV pv hlast
      have hpvmem : pv ∈ d.pages := by
        rw [hsplit]
        exact List.mem_append.mpr (Or.inl (mem_of_getLast?_eq _ _ hlast))
      cases hhead : l2.head? with
      | none =>
          rw [hhead] at hnl hbm
          simp only [Option.elim] at hbm
          refine ⟨⟨erasePage (updatePage d.pages ⟨pv.key, pv.prev, none, pv.tokens⟩)
            curr.key, d.ownerCount - 1⟩, ?_, ?_, ?_, ?_, ?_, ?_, ?_⟩
          · unfold removeToken
            rw [hloc]
            simp [hmem, hpl, hnl, hempt]
          · rw [hbm]
            simp
          · exact lookupPage_erasePage_self _ _
          · intro hbt
            rw [hbm] at hbt
            exact absurd hbt (by simp)
          · intro _ pv' nx hpv' hnx
            exact absurd hnx (by simp)
          · intro _ pv' hpv'
            have he : pv' = pv := (Option.some.inj hpv').symm
            subst he
            rw [lookupPage_erasePage_ne _ _ _ (Nat.ne_of_lt hpvlt)]
            exact lookupPage_updatePage_self d.pages ⟨pv'.key, pv'.prev, none, pv'.tokens⟩
              pv' hpvlook
          · intro _ nx hnx
            exact absurd hnx (by simp)
      | some nx =>
          rw [hhead] at hnl hbm
          simp only [Option.elim] at hbm
          obtain ⟨hnxprev, hnxgt, hnxlook⟩ := hNX nx hhead
          have hknx_pv : pv.key < nx.key := Nat.lt_trans hpvlt hnxgt
          have hl1m : lookupPage (erasePage (updatePage (updatePage d.pages
              ⟨pv.key, pv.prev, some nx.key, pv.tokens⟩)
              ⟨nx.key, some pv.key, nx.next, nx.tokens⟩) curr.key) pv.key =
              some ⟨pv.key, pv.prev, some nx.key, pv.tokens⟩ := by
            rw [lookupPage_erasePage_ne _ _ _ (Nat.ne_of_lt hpvlt)]
            rw [lookupPage_updatePage_ne _ ⟨nx.key, some pv.key, nx.next, nx.tokens⟩ _
              (Nat.ne_of_lt hknx_pv)]
            exact lookupPage_updatePage_self d.pages
              ⟨pv.key, pv.prev, some nx.key, pv.tokens⟩ pv hpvlook
          have hl2m : lookupPage (erasePage (updatePage (updatePage d.pages
              ⟨pv.key, pv.prev, some nx.key, pv.tokens⟩)
              ⟨nx.key, some pv.key, nx.next, nx.tokens⟩) curr.key) nx.key =
              some ⟨nx.key, some pv.key, nx.next, nx.tokens⟩ := by
            rw [lookupPage_erasePage_ne _ _ _ (Ne.symm (Nat.ne_of_lt hnxgt))]
            refine lookupPage_updatePage_self _
              ⟨nx.key, some pv.key, nx.next, nx.tokens⟩ nx ?_
            show lookupPage (updatePage d.pages
              ⟨pv.key, pv.prev, some nx.key, pv.tokens⟩) nx.key = some nx
            rw [lookupPage_updatePage_ne _ ⟨pv.key, pv.prev, some nx.key, pv.tokens⟩ _
              (Ne.symm (Nat.ne_of_lt hknx_pv))]
            exact hnxlook
          obtain ⟨dm, hmeq, hmoc, hmfail, hmsucc, hmframe⟩ :=
            mergePages_valid ⟨erasePage (updatePage (updatePage d.pages
              ⟨pv.key, pv.prev, some nx.key, pv.tokens⟩)
              ⟨nx.key, some pv.key, nx.next, nx.tokens⟩) curr.key, d.ownerCount⟩
              ⟨pv.key, pv.prev, some nx.key, pv.tokens⟩
              ⟨nx.key, some pv.key, nx.next, nx.tokens⟩ hl1m hl2m hknx_pv rfl rfl
              (by
                intro ppm hppm
                have hppm' : pv.prev = some ppm := hppm
                obtain ⟨hlt, p0, hp0⟩ := prev_loadable d pv ppm hinv hpvmem hppm'
                refine ⟨show ppm ≠ pv.key by omega, show ppm ≠ nx.key by omega, p0, ?_⟩
                show lookupPage (erasePage (updatePage (updatePage d.pages
                  ⟨pv.key, pv.prev, some nx.key, pv.tokens⟩)
                  ⟨nx.key, some pv.key, nx.next, nx.tokens⟩) curr.key) ppm = some p0
                rw [lookupPage_erasePage_ne _ _ _ (show ppm ≠ curr.key by omega)]
                rw [lookupPage_updatePage_ne _ ⟨nx.key, some pv.key, nx.next, nx.tokens⟩ _
                  (show ppm ≠ nx.key by omega)]
                rw [lookupPage_updatePage_ne _ ⟨pv.key, pv.prev, some nx.key, pv.tokens⟩ _
                  (show ppm ≠ pv.key by omega)]
                exact hp0)
          dsimp only at hmeq hmoc hmfail hmsucc hmframe
          have hcurrframe : pv.prev ≠ some curr.key := by
            intro hcon
            obtain ⟨hlt, _⟩ := prev_loadable d pv curr.key hinv hpvmem hcon
            omega
          by_cases hsz : pv.tokens.length + nx.tokens.length ≤ dirMaxTokensPerPage
          · have hcm : bm = true := by rw [hbm]; exact decide_eq_true hsz
            rw [decide_eq_true hsz] at hmeq
            obtain ⟨hgone, hq, hp0upd⟩ := hmsucc hsz
            refine ⟨⟨dm.pages, dm.ownerCount - 2⟩, ?_, ?_, ?_, ?_, ?_, ?_, ?_⟩
            · unfold removeToken
              rw [hloc]
              simp [hmem, hpl, hnl, hempt, hmeq]
            · show dm.ownerCount - 2 = _
              rw [hmoc, hcm, if_pos rfl]
              omega
            · show lookupPage dm.pages curr.key = none
              rw [hmframe curr.key (Ne.symm (Nat.ne_of_lt hpvlt))
                (Nat.ne_of_lt hnxgt) hcurrframe]
              exact lookupPage_erasePage_self _ _
            · intro _ pv' hpv'
              have he : pv' = pv := (Option.some.inj hpv').symm
              subst he
              exact hgone
            · intro _ pv' nx' hpv' hnx'
              have he1 : pv' = pv := (Option.some.inj hpv').symm
              have he2 : nx' = nx := (Option.some.inj hnx').symm
              subst he1
              subst he2
              exact hq
            · intro hbf
              rw [hcm] at hbf
              exact absurd hbf (by simp)
            · intro hbf
              rw [hcm] at hbf
              exact absurd hbf (by simp)
          · have hcm : bm = false := by rw [hbm]; exact decide_eq_false hsz
            rw [decide_eq_false hsz] at hmeq
            have hdm := hmfail hsz
            refine ⟨⟨erasePage (updatePage (updatePage d.pages
              ⟨pv.key, pv.prev, some nx.key, pv.tokens⟩)
              ⟨nx.key, some pv.key, nx.next, nx.tokens⟩) curr.key,
              d.ownerCount - 1⟩, ?_, ?_, ?_, ?_, ?_, ?_, ?_⟩
            · unfold removeToken
              rw [hloc]
              simp [hmem, hpl, hnl, hempt, hmeq, hdm]
            · rw [hcm, if_neg (by simp)]
              show d.ownerCount - 1 = d.ownerCount - 1 - 0
              omega
            · exact lookupPage_erasePage_self _ _
            · intro hbt
              rw [hcm] at hbt
              exact absurd hbt (by simp)
            · intro hbt
              rw [hcm] at hbt
              exact absurd hbt (by simp)
            · intro _ pv' hpv'
              have he : pv' = pv := (Option.some.inj hpv').symm
              subst he
              exact hl1m
            · intro _ nx' hnx'
              have he : nx' = nx := (Option.some.inj hnx').symm
              subst he
              exact hl2m

/-- C9: removing a token from the located page in an
invariant-satisfying directory.  If the page keeps at least one token
(`arr ≠ []`), it is rewritten and a merge with the previous page and
then the next page is attempted, each succeeding exactly when the
combined token count is at most 32 (the booleans `b1` and `b2`, the
second computed on the post-first-merge size); per successful merge the
lower-keyed page is erased and the owner's object count drops by one.
If the page becomes empty (`arr = []`), it is unlinked from both
neighbors, erased, the count drops by one, and a merge of the two
now-adjacent neighbors is attempted (`bm`), erasing the lower neighbor
and dropping the count once more exactly when their combined size is at
most 32. -/
theorem C9_remove_merge_behavior (d : Dir) (l1 l2 : List Page) (curr : Page) (T : Nat)
    (arr : List TokenEntry) (b1 b2 bm : Bool)
    (hinv : dirInvariantB d = true)
    (hsplit : d.pages = l1 ++ curr :: l2)
    (hmem : curr.tokens.any (fun t => t.id == T) = true)
    (harr : arr = eraseFirstToken T curr.tokens)
    (hb1 : b1 = (l1.getLast?).elim false
      (fun pv => decide (pv.tokens.length + arr.length ≤ dirMaxTokensPerPage)))
    (hb2 : b2 = (l2.head?).elim false
      (fun nx => decide ((if b1 then (l1.getLast?).elim 0 (fun pv => pv.tokens.length) else 0)
        + arr.length + nx.tokens.length ≤ dirMaxTokensPerPage)))
    (hbm : bm = (l1.getLast?).elim false (fun pv => (l2.head?).elim false
      (fun nx => decide (pv.tokens.length + nx.tokens.length ≤ dirMaxTokensPerPage)))) :
    (arr ≠ [] → ∃ d2, removeToken d T = some (TER.tesSUCCESS, d2) ∧
      d2.ownerCount = d.ownerCount - ((if b1 then 1 else 0) + (if b2 then 1 else 0)) ∧
      (b1 = true → ∀ pv, l1.getLast? = some pv → lookupPage d2.pages pv.key = none) ∧
      (b1 = false → ∀ pv, l1.getLast? = some pv →
        ∃ q, lookupPage d2.pages pv.key = some q ∧ q.tokens = pv.tokens) ∧
      (b2 = true → lookupPage d2.pages curr.key = none) ∧
      (b2 = false → ∃ q, lookupPage d2.pages curr.key = some q ∧
        q.tokens = if b1 then (l1.getLast?).elim arr (fun pv => mergeTokenLists pv.tokens arr)
          else arr)) ∧
    (arr = [] → ∃ d2, removeToken d T = some (TER.tesSUCCESS, d2) ∧
      d2.ownerCount = d.ownerCount - 1 - (if bm then 1 else 0) ∧
      lookupPage d2.pages curr.key = none ∧
      (bm = true → ∀ pv, l1.getLast? = some pv → lookupPage d2.pages pv.key = none) ∧
      (bm = true → ∀ pv nx, l1.getLast? = some pv → l2.head? = some nx →
        lookupPage d2.pages nx.key =
          some ⟨nx.key, pv.prev, nx.next, mergeTokenLists pv.tokens nx.tokens⟩) ∧
      (bm = false → ∀ pv, l1.getLast? = some pv →
        lookupPage d2.pages pv.key =
          some ⟨pv.key, pv.prev, (l2.head?).map Page.key, pv.tokens⟩) ∧
      (bm = false → ∀ nx, l2.head? = some nx →
        lookupPage d2.pages nx.key =
          some ⟨nx.key, (l1.getLast?).map Page.key, nx.next, nx.tokens⟩)) := by
  constructor
  · intro hne
    exact removeToken_nonempty_spec d l1 l2 curr T arr b1 b2 hinv hsplit hmem harr
      hb1 hb2 hne
  · intro hemp
    refine removeToken_empty_spec d l1 l2 curr T bm hinv hsplit hmem ?_ hbm
    rw [← harr]
    exact hemp

/-- Witness for C9 at a concrete two-page directory: removing one of the
two tokens of the upper page leaves it non-empty, the merge with the
lower single-token page succeeds, the lower page is erased and the owner
count drops from 2 to 1. -/
theorem C9_remove_merge_behavior_witness :
    ∃ d2, removeToken ⟨[⟨2, none, some 5, [⟨2 ^ 96, none⟩]⟩,
        ⟨5, some 2, none, [⟨3 * 2 ^ 96, none⟩, ⟨3 * 2 ^ 96 + 1, none⟩]⟩], 2⟩
        (3 * 2 ^ 96) = some (TER.tesSUCCESS, d2) ∧
      d2.ownerCount = 1 ∧ lookupPage d2.pages 2 = none := by
  obtain ⟨d2, h1, h2, h3, _, _, _⟩ :=
    (C9_remove_merge_behavior ⟨[⟨2, none, some 5, [⟨2 ^ 96, none⟩]⟩,
        ⟨5, some 2, none, [⟨3 * 2 ^ 96, none⟩, ⟨3 * 2 ^ 96 + 1, none⟩]⟩], 2⟩
      [⟨2, none, some 5, [⟨2 ^ 96, none⟩]⟩] []
      ⟨5, some 2, none, [⟨3 * 2 ^ 96, none⟩, ⟨3 * 2 ^ 96 + 1, none⟩]⟩
      (3 * 2 ^ 96) [⟨3 * 2 ^ 96 + 1, none⟩] true false false
      (by decide) rfl (by decide) (by decide) (by decide) (by decide) (by decide)).1
      (by decide)
  refine ⟨d2, h1, ?_, ?_⟩
  · rw [h2]
    decide
  · exact h3 rfl ⟨2, none, some 5, [⟨2 ^ 96, none⟩]⟩ rfl

end NFT
